import Mathlib

/-!
# Verification of the tuneloom inference-service core

Shallow embedding of the parts of `src/inference-service` that the checked
properties talk about: the authentication middleware, the version resolver,
the model cache (eviction / unload / prewarm keying), the streaming
stop-string splicing, the token-level stopping criterion, the artifact
validity check and the numerical-stability logits processor.

Strings from the Python code are modelled as `List Char`; Python dicts as
association lists (first match wins, as for unique-key dicts); Python
`None`-able values as `Option`; uncaught exceptions as `Option`/`Except`
results.  All definitions are executable.
-/

namespace Tuneloom

/-! ## Python-style string helpers -/

/-- `isPrefOf p t` is Python `t.startswith(p)` for `t`, `p` char lists. -/
def isPrefOf : List Char → List Char → Bool
  | [], _ => true
  | _ :: _, [] => false
  | p :: ps, c :: cs => p == c && isPrefOf ps cs

/-- `isSuffOf p t` is Python `t.endswith(p)`. -/
def isSuffOf (p t : List Char) : Bool :=
  isPrefOf p.reverse t.reverse

/-- `isSubOf s t` is Python `s in t` (substring containment). -/
def isSubOf (s : List Char) : List Char → Bool
  | [] => isPrefOf s []
  | c :: cs => isPrefOf s (c :: cs) || isSubOf s cs

/-- `firstOcc s t` is Python `t.index(s)`: index of the first occurrence of
`s` in `t` (meaningful only when `isSubOf s t`, as at its call sites). -/
def firstOcc (s t : List Char) : Nat :=
  if isPrefOf s t then 0
  else
    match t with
    | [] => 0
    | _ :: cs => firstOcc s cs + 1

/-- Python `t.replace(c, d)` for single-character patterns. -/
def pyReplaceChar (c d : Char) (s : List Char) : List Char :=
  s.map fun x => if x = c then d else x

/-- Python `t.split(c)` for a single-character separator. -/
def splitChar (c : Char) : List Char → List (List Char)
  | [] => [[]]
  | x :: xs =>
    let r := splitChar c xs
    if x = c then [] :: r else (x :: r.headI) :: r.tail

/-- Python `t.strip(c)` for a single-character strip set. -/
def stripChar (c : Char) (s : List Char) : List Char :=
  ((s.dropWhile (· = c)).reverse.dropWhile (· = c)).reverse

/-! ## Python-dict helpers (association lists, unique keys) -/

/-- `d.get(k)` on a dict represented as an association list. -/
def assocLookup {β : Type} : List (List Char × β) → List Char → Option β
  | [], _ => none
  | (k', v) :: rest, k => if k' = k then some v else assocLookup rest k

/-- `d[k] = v`: replace the binding in place, or append a new one. -/
def assocSet {β : Type} : List (List Char × β) → List Char → β → List (List Char × β)
  | [], k, v => [(k, v)]
  | (k', v') :: rest, k, v =>
    if k' = k then (k, v) :: rest else (k', v') :: assocSet rest k v

/-- Remove the (first) binding of `k`, a no-op when absent. -/
def assocErase {β : Type} : List (List Char × β) → List Char → List (List Char × β)
  | [], _ => []
  | (k', v) :: rest, k => if k' = k then rest else (k', v) :: assocErase rest k

/-- Python `del d[k]`: `none` models the `KeyError` on a missing key. -/
def delKey {β : Type} (l : List (List Char × β)) (k : List Char) :
    Option (List (List Char × β)) :=
  if (assocLookup l k).isSome then some (assocErase l k) else none

/-- Python `del d[k]` on a dict modelled by its key list. -/
def delName (l : List (List Char)) (k : List Char) : Option (List (List Char)) :=
  if k ∈ l then some (l.erase k) else none

/-- Python `min(items, key=lambda x: x[1])`: first minimum wins. -/
def minByVal {α : Type} : List (α × Nat) → Option (α × Nat)
  | [] => none
  | x :: xs => some (xs.foldl (fun b y => if y.2 < b.2 then y else b) x)

/-- Stable insertion used by `pySortByVal`. -/
def insertByVal {α : Type} (x : α × Nat) : List (α × Nat) → List (α × Nat)
  | [] => [x]
  | y :: ys => if y.2 < x.2 then y :: insertByVal x ys else x :: y :: ys

/-- Python `sorted(items, key=lambda x: x[1])`: stable, ascending. -/
def pySortByVal {α : Type} : List (α × Nat) → List (α × Nat)
  | [] => []
  | x :: xs => insertByVal x (pySortByVal xs)

/-! ## Artifact validity check (`ModelManager._is_valid_model_directory`)

A directory is modelled by its file-name listing.  The check requires
`config.json` plus weight files: single-file, one of the two exact index
file names, or sharded weight files. -/

/-- `ModelManager._is_valid_model_directory`, over the directory listing. -/
def isValidModelDirectory (files : List (List Char)) : Bool :=
  if !files.contains "config.json".toList then false
  else
    let hasSingleFile :=
      (["pytorch_model.bin".toList, "model.safetensors".toList]).any
        fun f => files.contains f
    let hasIndex :=
      (["pytorch_model.bin.index.json".toList,
        "model.safetensors.index.json".toList]).any
        fun f => files.contains f
    let hasSharded := files.any fun f =>
      (isPrefOf "model-".toList f && isSuffOf ".safetensors".toList f)
      || (isPrefOf "pytorch_model-".toList f && isSuffOf ".bin".toList f)
    hasSingleFile || hasIndex || hasSharded

/-- Validity as claim C8 words it: any `*.index.json` file passes as a
shard index. -/
def c8ClaimValid (files : List (List Char)) : Prop :=
  "config.json".toList ∈ files ∧
    ("pytorch_model.bin".toList ∈ files ∨
     "model.safetensors".toList ∈ files ∨
     (∃ f ∈ files, isSuffOf ".index.json".toList f = true) ∨
     (∃ f ∈ files,
       ((isPrefOf "model-".toList f && isSuffOf ".safetensors".toList f)
        || (isPrefOf "pytorch_model-".toList f && isSuffOf ".bin".toList f)) = true))

/-- Validity as the code has it: the index file must be one of the two exact
names `pytorch_model.bin.index.json` / `model.safetensors.index.json`. -/
def c8AmendedValid (files : List (List Char)) : Prop :=
  "config.json".toList ∈ files ∧
    ("pytorch_model.bin".toList ∈ files ∨
     "model.safetensors".toList ∈ files ∨
     "pytorch_model.bin.index.json".toList ∈ files ∨
     "model.safetensors.index.json".toList ∈ files ∨
     (∃ f ∈ files,
       ((isPrefOf "model-".toList f && isSuffOf ".safetensors".toList f)
        || (isPrefOf "pytorch_model-".toList f && isSuffOf ".bin".toList f)) = true))

/-- A directory with `config.json` and a shard-index named other than the
two file names the code looks for. -/
def c8CexFiles : List (List Char) :=
  ["config.json".toList, "weights.index.json".toList]

/-! ## Token-level stopping criterion (`StopOnTokens.__call__`) -/

/-- Python `xs[-n:]` under the guard `xs.length ≥ n` (note `xs[-0:] = xs`). -/
def pyTailSlice (xs : List Int) (n : Nat) : List Int :=
  if n = 0 then xs else xs.drop (xs.length - n)

/-- The per-stop-sequence check inside `StopOnTokens.__call__`'s loop. -/
def stopHit (gen : List Int) (stop : List Int) : Bool :=
  if gen.length ≥ stop.length then
    (pyTailSlice gen stop.length == stop)
    || (if stop.length = 1 then gen.contains stop.headI
        else (List.range (gen.length - stop.length + 1)).any
          fun i => (gen.drop i).take stop.length == stop)
  else false

/-- `StopOnTokens.__call__`: checks the newly generated tokens
`inputIds.drop promptLength` against every stop sequence. -/
def stopOnTokens (stopTokenIds : List (List Int)) (promptLength : Nat)
    (inputIds : List Int) : Bool :=
  stopTokenIds.any (stopHit (inputIds.drop promptLength))

/-- The stopping condition as claim C5 words it, over the generated tokens:
some stop matches the tail, or a single-token stop occurs anywhere, or a
multi-token stop occurs at some sliding-window position. -/
def c5ClaimStops (stopTokenIds : List (List Int)) (gen : List Int) : Prop :=
  ∃ s ∈ stopTokenIds,
    (∃ p, gen = p ++ s) ∨
    (∃ x, s = [x] ∧ x ∈ gen) ∨
    (2 ≤ s.length ∧ ∃ a b, gen = a ++ s ++ b)

/-! ## Version resolver (`VersionResolver`) and GCS path resolution

The Firestore metadata store is modelled by the data the resolver reads:
a `models` collection keyed by model name, each document carrying an
optional `activeVersionId` and a `versions` subcollection keyed by version
id whose documents carry an optional `versionLabel`.  Python falsy string
fields (`None` or `""`) are both represented. -/

/-- One document of the `versions` subcollection. -/
structure VersionDoc where
  versionLabel : Option (List Char)
deriving DecidableEq

/-- One document of the `models` collection. -/
structure ModelDoc where
  activeVersionId : Option (List Char)
  versions : List (List Char × VersionDoc)
deriving DecidableEq

/-- The metadata store contents the resolver queries. -/
structure MetaStore where
  models : List (List Char × ModelDoc)
deriving DecidableEq

/-- The four `ValueError` sites of `VersionResolver._query_active_version`. -/
inductive VersionErr
  | modelNotFound
  | noActiveVersion
  | versionDocMissing
  | missingVersionLabel
deriving DecidableEq

/-- Python truthiness of an optional string field. -/
def pyTruthyStr : Option (List Char) → Bool
  | none => false
  | some s => !s.isEmpty

/-- `VersionResolver._query_active_version`: raises (returns `.error`) on a
missing model document, falsy `activeVersionId`, missing version document
or falsy `versionLabel`. -/
def queryActiveVersion (store : MetaStore) (name : List Char) :
    Except VersionErr (List Char) :=
  match assocLookup store.models name with
  | none => .error .modelNotFound
  | some doc =>
    if !pyTruthyStr doc.activeVersionId then .error .noActiveVersion
    else
      match assocLookup doc.versions (doc.activeVersionId.getD []) with
      | none => .error .versionDocMissing
      | some vdoc =>
        if !pyTruthyStr vdoc.versionLabel then .error .missingVersionLabel
        else .ok (vdoc.versionLabel.getD [])

/-- Result of one `get_active_version_label` call: the returned value (or
propagated error), the version cache afterwards, and how many metadata-store
queries the call issued. -/
structure ResolveOutcome where
  result : Except VersionErr (Option (List Char))
  cache : List (List Char × (List Char × Nat))
  queries : Nat

/-- `VersionResolver.get_active_version_label`: base names (containing `/`)
resolve to `none`; otherwise a fresh cache entry is served without a store
query, and a miss or stale entry triggers `_query_active_version`, whose
success is cached with the current time. -/
def getActiveVersionLabel (store : MetaStore) (cacheTtl : Nat)
    (cache : List (List Char × (List Char × Nat))) (name : List Char)
    (now : Nat) : ResolveOutcome :=
  if name.contains '/' then ⟨.ok none, cache, 0⟩
  else
    match assocLookup cache name with
    | some (label, cachedAt) =>
      if now - cachedAt < cacheTtl then ⟨.ok (some label), cache, 0⟩
      else
        match queryActiveVersion store name with
        | .error e => ⟨.error e, cache, 1⟩
        | .ok label => ⟨.ok (some label), assocSet cache name (label, now), 1⟩
    | none =>
      match queryActiveVersion store name with
      | .error e => ⟨.error e, cache, 1⟩
      | .ok label => ⟨.ok (some label), assocSet cache name (label, now), 1⟩

/-- `ModelManager._get_gcs_model_path`: for custom names the active version
is resolved and, on success with a truthy label, the versioned path is
returned; any resolution error is caught and the non-versioned fallback
path `{prefix}{name with / replaced by -}` is returned instead. -/
def gcsModelPath (store : MetaStore) (cacheTtl : Nat)
    (cache : List (List Char × (List Char × Nat))) (now : Nat)
    (gcsModelPre modelId : List Char) : List Char :=
  let fallback := gcsModelPre ++ pyReplaceChar '/' '-' modelId
  if !modelId.contains '/' then
    match (getActiveVersionLabel store cacheTtl cache modelId now).result with
    | .ok (some label) =>
      if !label.isEmpty then gcsModelPre ++ modelId ++ ['/'] ++ label
      else fallback
    | .ok none => fallback
    | .error _ => fallback
  else fallback

/-- A store with no model documents at all: resolution of any custom name
fails with `modelNotFound`. -/
def c3EmptyStore : MetaStore := ⟨[]⟩

/-! ## Model cache (`ModelManager` tables, eviction, unload, prewarm)

A cached entry is represented by the one field the checked properties
read: its optional `base_model_id` (present exactly on fine-tuned
entries).  The tables mirror `self.models`, `self.model_access_times`,
`self.loading_locks`, `self.base_models` (key set) and
`self.base_model_access_times`. -/

/-- The `ModelManager` cache tables. -/
structure CacheState where
  models : List (List Char × Option (List Char))
  accessTimes : List (List Char × Nat)
  loadingLocks : List (List Char)
  baseModels : List (List Char)
  baseAccessTimes : List (List Char × Nat)
deriving DecidableEq

/-- The dict comprehension in `_evict_lru_model`: access-time entries whose
model entry carries a `base_model_id` field. -/
def fineTunedATs (s : CacheState) : List (List Char × Nat) :=
  s.accessTimes.filter fun p =>
    match assocLookup s.models p.1 with
    | some (some _) => true
    | _ => false

/-- `ModelManager._get_fine_tuned_models_using_base`. -/
def fineTunedUsing (s : CacheState) (baseModelId : List Char) : List (List Char) :=
  (s.models.filter fun p => p.2 = some baseModelId).map Prod.fst

/-- `ModelManager._evict_lru_model`.  `none` models an uncaught exception
(`KeyError`/`ValueError`), which cannot occur when the tables are in sync.
Preference order: LRU fine-tuned entry, then LRU remaining `models` entry,
then the LRU base entry not referenced by any fine-tuned entry; if every
base is referenced, nothing is evicted. -/
def evictLruModel (s : CacheState) : Option CacheState :=
  if s.models.isEmpty && s.baseModels.isEmpty then some s
  else
    match minByVal (fineTunedATs s) with
    | some md =>
      match delKey s.models md.1, delKey s.accessTimes md.1 with
      | some ms, some ats =>
        some { s with models := ms, accessTimes := ats,
                      loadingLocks := s.loadingLocks.erase md.1 }
      | _, _ => none
    | none =>
      if !s.models.isEmpty then
        match minByVal s.accessTimes with
        | some md =>
          match delKey s.models md.1, delKey s.accessTimes md.1 with
          | some ms, some ats =>
            some { s with models := ms, accessTimes := ats,
                          loadingLocks := s.loadingLocks.erase md.1 }
          | _, _ => none
        | none => none
      else
        match (pySortByVal s.baseAccessTimes).find?
            (fun p => (fineTunedUsing s p.1).isEmpty) with
        | some bp =>
          match delName s.baseModels bp.1, delKey s.baseAccessTimes bp.1 with
          | some bs, some bats =>
            some { s with baseModels := bs, baseAccessTimes := bats }
          | _, _ => none
        | none => some s

/-- `ModelManager.unload_model`: removes the entry from `self.models` and
`self.model_access_times` when present; the base tables are untouched. -/
def unloadModel (s : CacheState) (modelId : List Char) : CacheState :=
  if (assocLookup s.models modelId).isSome then
    { s with models := assocErase s.models modelId,
             accessTimes :=
               if (assocLookup s.accessTimes modelId).isSome then
                 assocErase s.accessTimes modelId
               else s.accessTimes }
  else s

/-- `ModelManager.list_loaded_models`: the keys of `self.models`. -/
def listLoadedModels (s : CacheState) : List (List Char) :=
  s.models.map Prod.fst

/-- The residency behaviour of `ModelManager.load_model`, keyed exactly as
the code keys `self.models`: a resident id refreshes its access time and
does not run the loader; a miss runs the loader body (the artifact and
weight work is abstracted into the inserted entry) and inserts the entry
under the requested id.  Returns the new state and whether the loader body
ran. -/
def loadModelEntry (s : CacheState) (modelId : List Char)
    (entry : Option (List Char)) (now : Nat) : CacheState × Bool :=
  if (assocLookup s.models modelId).isSome then
    ({ s with accessTimes := assocSet s.accessTimes modelId now }, false)
  else
    ({ s with models := assocSet s.models modelId entry,
              accessTimes := assocSet s.accessTimes modelId now }, true)

/-- `prewarm_models.load_single_model`: normalizes the requested id by
replacing every `/` with `-` and loads under the normalized id. -/
def prewarmLoadSingle (s : CacheState) (modelId : List Char) (now : Nat) :
    CacheState × Bool :=
  loadModelEntry s (pyReplaceChar '/' '-' modelId) none now

/-! ## Authentication middleware (`AuthMiddleware.verify_api_key`)

The SHA-256 hashing is abstracted into a hash-function parameter; the
Firestore `api-keys` query result and the TTL key cache are passed in as
data.  `AuthOutcome.pyNone` models the Python function running off the end
of its body and implicitly returning `None`. -/

/-- The fields of an `api-keys` document the middleware reads. -/
structure KeyRecord where
  modelName : Option (List Char)
  expiresAt : Option Nat
  userId : Option (List Char)
  keyType : Option (List Char)
deriving DecidableEq

/-- The authentication context dictionary a successful call returns. -/
structure AuthCtx where
  authenticated : Bool
  modelId : Option (List Char)
  requestedModel : Option (List Char)
deriving DecidableEq

/-- Result of `verify_api_key`: a context, a raised `HTTPException` with
its status code, or Python's implicit `None` return. -/
inductive AuthOutcome
  | ok (ctx : AuthCtx)
  | err (status : Nat)
  | pyNone
deriving DecidableEq

/-- Outcome of the Firestore `api-keys` query for the presented hash. -/
inductive StoreReply
  | failure
  | absent
  | found (rec : KeyRecord) (docId : List Char)
deriving DecidableEq

/-- `AuthMiddleware._extract_model_from_path`. -/
def extractModelFromPath (path : List Char) : Option (List Char) :=
  match splitChar '/' (stripChar '/' path) with
  | p0 :: p1 :: _ =>
    if p0 = "v1".toList
        ∧ p1 ∉ ["chat".toList, "completions".toList, "models".toList] then
      some p1
    else none
  | _ => none

/-- `AuthMiddleware.verify_api_key`.  Returns the outcome and the key cache
afterwards.  The expiration check, path-scope check and the construction of
the returned context sit inside the cache-miss branch of the source, so a
cache hit assigns `key_data`/`key_doc_id` and then falls off the end of the
function, yielding `pyNone`. -/
def verifyApiKey (requireAuth : Bool) (baseModelKey : List Char)
    (hash : List Char → List Char)
    (cache : List (List Char × (KeyRecord × List Char)))
    (store : StoreReply) (now : Nat) (path : List Char)
    (credentials : Option (List Char)) :
    AuthOutcome × List (List Char × (KeyRecord × List Char)) :=
  if path ∈ ["/".toList, "/health".toList, "/v1/models".toList] then
    (.ok ⟨false, none, none⟩, cache)
  else if !requireAuth then (.ok ⟨false, none, none⟩, cache)
  else
    match credentials with
    | none => (.err 401, cache)
    | some apiKey =>
      if !(isPrefOf "sk_".toList apiKey || isPrefOf "ak_".toList apiKey) then
        (.err 401, cache)
      else if apiKey = baseModelKey ∧ baseModelKey ≠ [] then
        (.ok ⟨true, some "*".toList, none⟩, cache)
      else
        let keyHash := hash apiKey
        match assocLookup cache keyHash with
        | some _ => (.pyNone, cache)
        | none =>
          match store with
          | .failure => (.err 500, cache)
          | .absent => (.err 401, cache)
          | .found rec docId =>
            let cache' := assocSet cache keyHash (rec, docId)
            let expired : Bool :=
              match rec.expiresAt with
              | some t => decide (t < now)
              | none => false
            if expired then (.err 401, cache')
            else
              let requested := extractModelFromPath path
              let reqTruthy : Bool :=
                match requested with
                | some m => !m.isEmpty
                | none => false
              if reqTruthy && decide (rec.modelName ≠ some "*".toList) then
                if rec.modelName ≠ requested then (.err 403, cache')
                else (.ok ⟨true, rec.modelName, requested⟩, cache')
              else (.ok ⟨true, rec.modelName, requested⟩, cache')

/-- The key record of claim C1's scenario: scoped to model `m1`. -/
def c1Record : KeyRecord := ⟨some "m1".toList, none, none, none⟩

/-- A request path naming a model other than `m1`. -/
def c1Path : List Char := "/v1/other/chat/completions".toList

/-! ## Numerical-stability logits processor and generation kwargs

Floating-point scores are modelled by their IEEE classification: the
processor only classifies values (`isnan` / `isposinf` / `isneginf`) and
replaces whole values, so a sum type of NaN, the two infinities and a
finite rational is a faithful carrier. -/

/-- A floating-point score, by IEEE class. -/
inductive FloatVal
  | nan
  | posInf
  | negInf
  | finite (q : ℚ)
deriving DecidableEq

/-- `torch.isnan` on one value. -/
def isNanF : FloatVal → Bool
  | .nan => true
  | _ => false

/-- `torch.isposinf` on one value. -/
def isPosInfF : FloatVal → Bool
  | .posInf => true
  | _ => false

/-- `torch.isneginf` on one value. -/
def isNegInfF : FloatVal → Bool
  | .negInf => true
  | _ => false

/-- `torch.isinf` on one value. -/
def isInfFV (v : FloatVal) : Bool :=
  isPosInfF v || isNegInfF v

/-- `torch.isfinite` on one value: a finite rational score. -/
def isFiniteF : FloatVal → Bool
  | .finite _ => true
  | _ => false

/-- Constructor parameters of `NumericalStabilityLogitsProcessor`. -/
structure StabilityParams where
  minLogit : ℚ
  maxLogit : ℚ
  nanReplacement : ℚ
deriving DecidableEq

/-- The defaults: `min_logit=-1e4`, `max_logit=1e4`, `nan_replacement=-1e4`. -/
def defaultStabilityParams : StabilityParams := ⟨-10000, 10000, -10000⟩

/-- `NumericalStabilityLogitsProcessor.__call__` on a score row:
return the row unchanged when no NaN/inf is present, else replace NaN with
the sentinel, then positive infinities with the maximum, then negative
infinities with the minimum. -/
def numericalStabilityProcess (p : StabilityParams) (scores : List FloatVal) :
    List FloatVal :=
  let hasNan := scores.any isNanF
  let hasInf := scores.any isInfFV
  if !(hasNan || hasInf) then scores
  else
    let s1 :=
      if hasNan then
        scores.map fun v => if isNanF v then .finite p.nanReplacement else v
      else scores
    if hasInf then
      let s2 :=
        if s1.any isPosInfF then
          s1.map fun v => if isPosInfF v then .finite p.maxLogit else v
        else s1
      if s2.any isNegInfF then
        s2.map fun v => if isNegInfF v then .finite p.minLogit else v
      else s2
    else s1

/-- The pointwise replacement the processor is specified to perform. -/
def stabilizeVal (p : StabilityParams) : FloatVal → FloatVal
  | .nan => .finite p.nanReplacement
  | .posInf => .finite p.maxLogit
  | .negInf => .finite p.minLogit
  | .finite q => .finite q

/-- A value appearing in the `gen_kwargs` dict of
`InferenceEngine._prepare_generation_kwargs`. -/
inductive KwargVal
  | nat (n : Nat)
  | int (i : Int)
  | rat (q : ℚ)
  | bool (b : Bool)
  | ids (l : List Int)
  | stoppingCriteria (stops : List (List Int)) (promptLength : Nat)
deriving DecidableEq

/-- The request fields `_prepare_generation_kwargs` reads. -/
structure GenRequest where
  maxTokens : Nat
  temperature : ℚ
  topP : ℚ
deriving DecidableEq

/-- The tokenizer fields `_prepare_generation_kwargs` reads. -/
structure TokenizerIds where
  padTokenId : Option Int
  eosTokenId : Int
deriving DecidableEq

/-- The tokenized inputs `_prepare_generation_kwargs` reads. -/
structure TokenInputs where
  inputIds : List Int
  attentionMask : List Int
deriving DecidableEq

/-- The initial `gen_kwargs` dict `_prepare_generation_kwargs` builds
(keys in insertion order); `pad_token_id` is Python's
`tokenizer.pad_token_id or tokenizer.eos_token_id`. -/
def genKwargsBase (inputs : TokenInputs) (req : GenRequest)
    (tok : TokenizerIds) : List (List Char × KwargVal) :=
  [("input_ids".toList, .ids inputs.inputIds),
   ("attention_mask".toList, .ids inputs.attentionMask),
   ("max_new_tokens".toList, .nat req.maxTokens),
   ("temperature".toList, .rat (max req.temperature (1/10))),
   ("do_sample".toList, .bool (decide (req.temperature > 0))),
   ("top_p".toList, .rat req.topP),
   ("pad_token_id".toList, .int
     (match tok.padTokenId with
      | some p => if p ≠ 0 then p else tok.eosTokenId
      | none => tok.eosTokenId)),
   ("eos_token_id".toList, .int tok.eosTokenId),
   ("use_cache".toList, .bool true)]

/-- The `if stop_token_sequences:` step: add the `StopOnTokens` stopping
criteria when a non-empty list was passed. -/
def genKwargsWithStops (inputs : TokenInputs) (req : GenRequest)
    (tok : TokenizerIds) (stopTokenSequences : Option (List (List Int))) :
    List (List Char × KwargVal) :=
  match stopTokenSequences with
  | some l =>
    if l.isEmpty then genKwargsBase inputs req tok
    else
      assocSet (genKwargsBase inputs req tok) "stopping_criteria".toList
        (.stoppingCriteria l inputs.inputIds.length)
  | none => genKwargsBase inputs req tok

/-- `InferenceEngine._prepare_generation_kwargs`, as the kwargs dict it
builds.  `stopTokenSequences = none` models the default `None` of the
parameter (the completion-stream call sites).  The sampling path adds
`top_k`/`repetition_penalty`/`renormalize_logits`; the greedy path forces
`do_sample=False`, sets `repetition_penalty` and pops
`temperature`/`top_p`. -/
def prepareGenerationKwargs (inputs : TokenInputs) (req : GenRequest)
    (tok : TokenizerIds) (stopTokenSequences : Option (List (List Int))) :
    List (List Char × KwargVal) :=
  if req.temperature > 0 then
    assocSet (assocSet (assocSet
      (genKwargsWithStops inputs req tok stopTokenSequences)
      "top_k".toList (.nat 40))
      "repetition_penalty".toList (.rat (115/100)))
      "renormalize_logits".toList (.bool true)
  else
    assocErase (assocErase (assocSet (assocSet
      (genKwargsWithStops inputs req tok stopTokenSequences)
      "do_sample".toList (.bool false))
      "repetition_penalty".toList (.rat (11/10)))
      "temperature".toList)
      "top_p".toList

/-- Concrete inputs for evaluating the generation kwargs. -/
def c7Inputs : TokenInputs := ⟨[1, 2, 3], [1, 1, 1]⟩

/-- A concrete sampling request (`temperature = 0.7`). -/
def c7Request : GenRequest := ⟨16, 7/10, 9/10⟩

/-- Concrete tokenizer ids. -/
def c7Tok : TokenizerIds := ⟨some 5, 2⟩

/-! ## Streaming stop splicing (`generate_stream` / `generate_completion_stream`)

The chat streaming loop is modelled as a state machine folded over the
decoder's text chunks.  The state carries `accumulated_text`,
`partial_stop_buffer`, the list of content deltas yielded so far, and
whether the loop has broken on a complete stop. -/

/-- State of the `generate_stream` splicing loop. -/
structure StreamState where
  accumulated : List Char
  partialBuf : List Char
  emitted : List (List Char)
  stopped : Bool
deriving DecidableEq

/-- The inner `for i in range(1, min(len(stop_str), len(accumulated)) + 1)`
scan: the smallest `i` whose stop-string prefix of length `i` is a suffix
of the accumulated text. -/
def smallestPartialIdx (stopStr acc : List Char) : Option Nat :=
  ((List.range (min stopStr.length acc.length)).map (· + 1)).find?
    fun i => isSuffOf (stopStr.take i) acc

/-- The outer partial-match loop over the stop strings: the first stop
string with a partial-suffix match buffers, provided the current chunk is
long enough; otherwise the loop moves on to the next stop string. -/
def findPartialBuffer (stops : List (List Char)) (text acc : List Char) :
    Option Nat :=
  match stops with
  | [] => none
  | stopStr :: rest =>
    match smallestPartialIdx stopStr acc with
    | some i =>
      if text.length ≥ i then some i else findPartialBuffer rest text acc
    | none => findPartialBuffer rest text acc

/-- One iteration of the `generate_stream` loop body on a decoder chunk:
prepend the buffered partial, extend `accumulated_text`, truncate and stop
at the first (in list order) stop string contained in the accumulated
text, else withhold a partial stop-string suffix; empty chunks are not
yielded. -/
def chatStreamStep (stops : List (List Char)) (st : StreamState)
    (raw : List Char) : StreamState :=
  if st.stopped then st
  else
    match stops.find?
        (fun stopStr => isSubOf stopStr (st.accumulated ++ (st.partialBuf ++ raw))) with
    | some stopStr =>
      ⟨st.accumulated ++ (st.partialBuf ++ raw), [],
       st.emitted ++
         (if ((st.partialBuf ++ raw).take
              (firstOcc stopStr (st.accumulated ++ (st.partialBuf ++ raw)) -
                ((st.accumulated ++ (st.partialBuf ++ raw)).length -
                  (st.partialBuf ++ raw).length))).isEmpty
          then []
          else [(st.partialBuf ++ raw).take
              (firstOcc stopStr (st.accumulated ++ (st.partialBuf ++ raw)) -
                ((st.accumulated ++ (st.partialBuf ++ raw)).length -
                  (st.partialBuf ++ raw).length))]),
       true⟩
    | none =>
      match findPartialBuffer stops (st.partialBuf ++ raw)
          (st.accumulated ++ (st.partialBuf ++ raw)) with
      | some i =>
        ⟨st.accumulated ++ (st.partialBuf ++ raw),
         (st.partialBuf ++ raw).drop ((st.partialBuf ++ raw).length - i),
         st.emitted ++
           (if ((st.partialBuf ++ raw).take ((st.partialBuf ++ raw).length - i)).isEmpty
            then []
            else [(st.partialBuf ++ raw).take ((st.partialBuf ++ raw).length - i)]),
         false⟩
      | none =>
        ⟨st.accumulated ++ (st.partialBuf ++ raw), [],
         st.emitted ++
           (if (st.partialBuf ++ raw).isEmpty then [] else [st.partialBuf ++ raw]),
         false⟩

/-- The whole `generate_stream` splicing loop over the decoder chunks. -/
def runChatStream (stops : List (List Char)) (chunks : List (List Char)) :
    StreamState :=
  chunks.foldl (chatStreamStep stops) ⟨[], [], [], false⟩

/-- The content deltas `generate_stream` yields. -/
def chatStreamEmitted (stops : List (List Char)) (chunks : List (List Char)) :
    List (List Char) :=
  (runChatStream stops chunks).emitted

/-- The content texts `generate_completion_stream` yields: its loop body
wraps every decoder chunk in a frame unchanged, with no stop handling. -/
def completionStreamTexts (chunks : List (List Char)) : List (List Char) :=
  chunks.foldl (fun acc text => acc ++ [text]) []

/-- The single stop string of claim C2's chat-path counterexample. -/
def c2Stop : List Char := "abab".toList

/-- Decoder chunks on which the chat path emits `"ab"`, `"ab"`, whose
concatenation is the stop string itself. -/
def c2Chunks : List (List Char) := ["aba".toList, "ba".toList]

/-- Chunks for exercising the amended chat-path guarantee. -/
def c2WitnessChunks : List (List Char) := ["aa".toList, "ab".toList]

/-- A metadata store holding one model, `assistant`, whose active version
is labelled `v3`. -/
def c6Store : MetaStore :=
  ⟨[("assistant".toList,
     ⟨some "v3id".toList, [("v3id".toList, ⟨some "v3".toList⟩)]⟩)]⟩

/-- A version cache holding `assistant ↦ (v3, cached at 50)`. -/
def c6Cache : List (List Char × (List Char × Nat)) :=
  [("assistant".toList, ("v3".toList, 50))]

/-- A cache state with one fine-tuned entry `ft1` on base `b`, one plain
entry `m2`, and the base `b` resident. -/
def c4ExState : CacheState :=
  ⟨[("ft1".toList, some "b".toList), ("m2".toList, none)],
   [("ft1".toList, 5), ("m2".toList, 3)],
   ["ft1".toList],
   ["b".toList],
   [("b".toList, 1)]⟩

/-! ## Helper lemmas on the string model -/

theorem isPrefOf_iff {p t : List Char} : isPrefOf p t = true ↔ ∃ r, t = p ++ r := by
  induction p generalizing t with
  | nil => simp [isPrefOf]
  | cons c cs ih =>
    cases t with
    | nil => simp [isPrefOf]
    | cons d ds =>
      simp only [isPrefOf, Bool.and_eq_true, beq_iff_eq, ih, List.cons_append]
      constructor
      · rintro ⟨rfl, r, rfl⟩
        exact ⟨r, rfl⟩
      · rintro ⟨r, h⟩
        obtain ⟨rfl, rfl⟩ := List.cons_eq_cons.mp h
        exact ⟨rfl, r, rfl⟩

theorem isSubOf_iff {s t : List Char} : isSubOf s t = true ↔ ∃ a b, t = a ++ s ++ b := by
  induction t with
  | nil =>
    simp only [isSubOf, isPrefOf_iff]
    constructor
    · rintro ⟨r, hr⟩
      exact ⟨[], r, by simp [hr]⟩
    · rintro ⟨a, b, hab⟩
      rw [List.nil_eq, List.append_assoc] at hab
      obtain ⟨-, hsb⟩ := List.append_eq_nil.mp hab
      exact ⟨b, by simp [hsb]⟩
  | cons c cs ih =>
    simp only [isSubOf, Bool.or_eq_true, isPrefOf_iff, ih]
    constructor
    · rintro (⟨r, hr⟩ | ⟨a, b, hab⟩)
      · exact ⟨[], r, by simp [hr]⟩
      · exact ⟨c :: a, b, by simp [hab]⟩
    · rintro ⟨a, b, hab⟩
      cases a with
      | nil => exact Or.inl ⟨b, by simpa using hab⟩
      | cons x xs =>
        rw [List.cons_append, List.cons_append] at hab
        obtain ⟨rfl, h⟩ := List.cons_eq_cons.mp hab
        exact Or.inr ⟨xs, b, by simp [h]⟩

theorem isSubOf_nil_of_ne {s : List Char} (h : s ≠ []) : isSubOf s [] = false := by
  cases s with
  | nil => exact absurd rfl h
  | cons c cs => rfl

theorem isSubOf_of_isSubOf_infix {s u x y : List Char} (h : isSubOf s u = true) :
    isSubOf s (x ++ u ++ y) = true := by
  obtain ⟨a, b, rfl⟩ := isSubOf_iff.mp h
  exact isSubOf_iff.mpr ⟨x ++ a, b ++ y, by simp⟩

theorem isPrefOf_of_isPrefOf_pref {s u w : List Char} (hu : isPrefOf s u = true)
    (huw : isPrefOf u w = true) : isPrefOf s w = true := by
  obtain ⟨r, rfl⟩ := isPrefOf_iff.mp hu
  obtain ⟨r', rfl⟩ := isPrefOf_iff.mp huw
  exact isPrefOf_iff.mpr ⟨r ++ r', by simp⟩

theorem firstOcc_take_not_sub {s t : List Char} (hs : s ≠ []) :
    isSubOf s (t.take (firstOcc s t)) = false := by
  induction t with
  | nil =>
    simp only [List.take_nil]
    exact isSubOf_nil_of_ne hs
  | cons c cs ih =>
    by_cases hp : isPrefOf s (c :: cs) = true
    · simp [firstOcc, hp, isSubOf_nil_of_ne hs]
    · have hpf : isPrefOf s (c :: cs) = false := by
        simpa using hp
      simp only [firstOcc, hpf, Bool.false_eq_true, if_false, List.take_succ_cons]
      simp only [isSubOf, Bool.or_eq_false_iff]
      refine ⟨?_, ih⟩
      by_contra hpref
      have hpref' : isPrefOf s (c :: List.take (firstOcc s cs) cs) = true := by
        simpa using hpref
      have : isPrefOf s (c :: cs) = true := by
        refine isPrefOf_of_isPrefOf_pref hpref' (isPrefOf_iff.mpr ⟨cs.drop (firstOcc s cs), ?_⟩)
        simp
      rw [this] at hpf
      exact absurd hpf (by simp)

theorem firstOcc_le_length_sub {s t : List Char} (h : isSubOf s t = true) :
    firstOcc s t + s.length ≤ t.length := by
  induction t with
  | nil =>
    obtain ⟨a, b, hab⟩ := isSubOf_iff.mp h
    rw [List.nil_eq, List.append_assoc] at hab
    obtain ⟨rfl, hsb⟩ := List.append_eq_nil.mp hab
    obtain ⟨rfl, -⟩ := List.append_eq_nil.mp hsb
    simp [firstOcc, isPrefOf]
  | cons c cs ih =>
    by_cases hp : isPrefOf s (c :: cs) = true
    · simp only [firstOcc, hp, if_true, Nat.zero_add]
      obtain ⟨r, hr⟩ := isPrefOf_iff.mp hp
      have : (c :: cs).length = s.length + r.length := by rw [hr]; simp
      omega
    · have hpf : isPrefOf s (c :: cs) = false := by simpa using hp
      simp only [firstOcc, hpf, Bool.false_eq_true, if_false, List.length_cons]
      have h' : isPrefOf s (c :: cs) = true ∨ isSubOf s cs = true := by
        simpa [isSubOf] using h
      have hsub : isSubOf s cs = true := by
        rcases h' with h1 | h2
        · rw [h1] at hpf; exact absurd hpf (by simp)
        · exact h2
      have := ih hsub
      omega

/-! ## Claim C8: artifact validity check -/

/-- C8 counterexample: a directory listing `config.json` plus a shard index
named `weights.index.json` matches the claim's `*.index.json` clause but is
rejected by the code, which only accepts the two exact index file names. -/
theorem C8_validity_counterexample :
    ¬ (isValidModelDirectory c8CexFiles = true ↔ c8ClaimValid c8CexFiles) := by
  unfold c8ClaimValid c8CexFiles
  decide

/-- C8 (amended): the artifact check returns true iff `config.json` is
present and there is a single-file weight, one of the two exact index file
names `pytorch_model.bin.index.json` / `model.safetensors.index.json`, or a
sharded weight file `model-*.safetensors` / `pytorch_model-*.bin`. -/
theorem C8_validity_amended (files : List (List Char)) :
    isValidModelDirectory files = true ↔ c8AmendedValid files := by
  unfold isValidModelDirectory c8AmendedValid
  by_cases hc : "config.json".toList ∈ files
  · have hcb : files.contains "config.json".toList = true := by
      simp only [List.contains]
      exact List.elem_iff.mpr hc
    simp [hcb, hc, List.contains, List.elem_iff, List.any_eq_true]
    aesop
  · have hcb : files.contains "config.json".toList = false := by
      simp only [List.contains, Bool.eq_false_iff, ne_eq, List.elem_iff]
      exact hc
    simp [hcb, hc]
    intro h
    exact absurd h hc

/-! ## Helper lemmas on the dict model -/

theorem assocLookup_set_self {β : Type} (l : List (List Char × β)) (k : List Char)
    (v : β) : assocLookup (assocSet l k v) k = some v := by
  induction l with
  | nil => simp [assocSet, assocLookup]
  | cons p rest ih =>
    obtain ⟨k', v'⟩ := p
    by_cases h : k' = k
    · simp [assocSet, assocLookup, h]
    · simp [assocSet, assocLookup, h, ih]

theorem assocLookup_set_ne {β : Type} (l : List (List Char × β)) (k k' : List Char)
    (v : β) (h : k' ≠ k) :
    assocLookup (assocSet l k v) k' = assocLookup l k' := by
  induction l with
  | nil =>
    simp only [assocSet, assocLookup]
    rw [if_neg (Ne.symm h)]
  | cons p rest ih =>
    obtain ⟨k₀, v₀⟩ := p
    by_cases h0 : k₀ = k
    · subst h0
      simp only [assocSet, if_pos rfl, assocLookup]
      rw [if_neg (Ne.symm h), if_neg (Ne.symm h)]
    · simp only [assocSet, if_neg h0, assocLookup]
      by_cases h1 : k₀ = k'
      · rw [if_pos h1, if_pos h1]
      · rw [if_neg h1, if_neg h1, ih]

theorem assocLookup_isSome_iff_mem_fst {β : Type} (l : List (List Char × β))
    (k : List Char) : (assocLookup l k).isSome = true ↔ k ∈ l.map Prod.fst := by
  induction l with
  | nil => simp [assocLookup]
  | cons p rest ih =>
    obtain ⟨k', v'⟩ := p
    simp only [assocLookup, List.map_cons, List.mem_cons]
    by_cases h : k' = k
    · subst h
      rw [if_pos rfl]
      exact ⟨fun _ => Or.inl rfl, fun _ => rfl⟩
    · rw [if_neg h]
      simp only [ih]
      constructor
      · exact fun hm => Or.inr hm
      · rintro (hm | hm)
        · exact absurd hm.symm h
        · exact hm

theorem assocErase_of_lookup_none {β : Type} (l : List (List Char × β))
    (k : List Char) : assocLookup l k = none → assocErase l k = l := by
  induction l with
  | nil => intro _; rfl
  | cons p rest ih =>
    obtain ⟨k', v'⟩ := p
    intro h
    simp only [assocLookup] at h
    by_cases hk : k' = k
    · rw [if_pos hk] at h
      exact absurd h (by simp)
    · rw [if_neg hk] at h
      simp only [assocErase, if_neg hk]
      rw [ih h]

theorem assocLookup_erase_of_nodup {β : Type} (l : List (List Char × β))
    (k k' : List Char) :
    (l.map Prod.fst).Nodup →
    assocLookup (assocErase l k) k' =
      if k' = k then none else assocLookup l k' := by
  induction l with
  | nil =>
    intro _
    simp [assocErase, assocLookup]
  | cons p rest ih =>
    obtain ⟨k₀, v₀⟩ := p
    intro hnd
    simp only [List.map_cons, List.nodup_cons] at hnd
    obtain ⟨hk₀, hnd'⟩ := hnd
    by_cases h0 : k₀ = k
    · subst h0
      have hrest : assocLookup rest k₀ = none := by
        cases hl : assocLookup rest k₀ with
        | none => rfl
        | some v =>
          have hmem : k₀ ∈ rest.map Prod.fst := by
            rw [← assocLookup_isSome_iff_mem_fst, hl]
            rfl
          exact absurd hmem hk₀
      by_cases h1 : k' = k₀
      · subst h1
        simp [assocErase, hrest]
      · simp only [assocErase, if_true]
        rw [if_neg h1]
        simp only [assocLookup]
        rw [if_neg (fun hh : k₀ = k' => h1 hh.symm)]
    · by_cases h1 : k' = k
      · subst h1
        simp [assocErase, assocLookup, h0, fun hh : k₀ = k' => h0 hh, ih hnd']
      · by_cases h2 : k₀ = k'
        · simp [assocErase, assocLookup, h0, h1, h2, ih hnd']
        · simp [assocErase, assocLookup, h0, h1, h2, ih hnd']

theorem assocLookup_erase_ne {β : Type} (l : List (List Char × β))
    (k k' : List Char) :
    assocLookup l k' = none → assocLookup (assocErase l k) k' = none := by
  induction l with
  | nil => intro _; rfl
  | cons p rest ih =>
    obtain ⟨k₀, v₀⟩ := p
    intro h
    simp only [assocLookup] at h
    by_cases hk' : k₀ = k'
    · rw [if_pos hk'] at h
      exact absurd h (by simp)
    · rw [if_neg hk'] at h
      by_cases h0 : k₀ = k
      · simpa [assocErase, h0] using h
      · simp only [assocErase, if_neg h0, assocLookup]
        rw [if_neg hk']
        exact ih h

/-! ## Resolver shape lemmas -/

theorem getActiveVersionLabel_hit (store : MetaStore) (ttl : Nat)
    (cache : List (List Char × (List Char × Nat))) (name : List Char) (now : Nat)
    (label : List Char) (t0 : Nat)
    (hname : name.contains '/' = false)
    (hlk : assocLookup cache name = some (label, t0))
    (hfresh : now - t0 < ttl) :
    getActiveVersionLabel store ttl cache name now = ⟨.ok (some label), cache, 0⟩ := by
  unfold getActiveVersionLabel
  rw [hname, hlk]
  simp [hfresh]

theorem getActiveVersionLabel_queries_le_one (store : MetaStore) (ttl : Nat)
    (cache : List (List Char × (List Char × Nat))) (name : List Char) (now : Nat) :
    (getActiveVersionLabel store ttl cache name now).queries ≤ 1 := by
  unfold getActiveVersionLabel
  split
  · exact Nat.zero_le 1
  · split
    · split
      · exact Nat.zero_le 1
      · split <;> exact Nat.le_refl 1
    · split <;> exact Nat.le_refl 1

theorem getActiveVersionLabel_miss (store : MetaStore) (ttl : Nat)
    (cache : List (List Char × (List Char × Nat))) (name : List Char) (now : Nat)
    (hname : name.contains '/' = false)
    (hmiss : ∀ label t0, assocLookup cache name = some (label, t0) → ttl ≤ now - t0) :
    getActiveVersionLabel store ttl cache name now =
      match queryActiveVersion store name with
      | .error e => ⟨.error e, cache, 1⟩
      | .ok label => ⟨.ok (some label), assocSet cache name (label, now), 1⟩ := by
  unfold getActiveVersionLabel
  rw [hname]
  simp only [Bool.false_eq_true, if_false]
  cases hlk : assocLookup cache name with
  | none => rfl
  | some p =>
    obtain ⟨label, t0⟩ := p
    have := hmiss label t0 hlk
    have hnf : ¬ (now - t0 < ttl) := by omega
    simp [hnf]

theorem getActiveVersionLabel_result_cases (store : MetaStore) (ttl : Nat)
    (cache : List (List Char × (List Char × Nat))) (name : List Char) (now : Nat)
    (hname : name.contains '/' = false) :
    (∃ label t0, assocLookup cache name = some (label, t0) ∧ now - t0 < ttl ∧
       getActiveVersionLabel store ttl cache name now = ⟨.ok (some label), cache, 0⟩) ∨
    (∃ e, queryActiveVersion store name = .error e ∧
       getActiveVersionLabel store ttl cache name now = ⟨.error e, cache, 1⟩) ∨
    (∃ label, queryActiveVersion store name = .ok label ∧
       getActiveVersionLabel store ttl cache name now
         = ⟨.ok (some label), assocSet cache name (label, now), 1⟩) := by
  by_cases hhit : ∃ label t0, assocLookup cache name = some (label, t0) ∧ now - t0 < ttl
  · obtain ⟨label, t0, hlk, hfresh⟩ := hhit
    exact Or.inl ⟨label, t0, hlk, hfresh,
      getActiveVersionLabel_hit store ttl cache name now label t0 hname hlk hfresh⟩
  · have hmiss : ∀ label t0, assocLookup cache name = some (label, t0) → ttl ≤ now - t0 := by
      intro label t0 hlk
      by_contra hlt
      exact hhit ⟨label, t0, hlk, by omega⟩
    have hshape := getActiveVersionLabel_miss store ttl cache name now hname hmiss
    cases hq : queryActiveVersion store name with
    | error e =>
      rw [hq] at hshape
      exact Or.inr (Or.inl ⟨e, rfl, hshape⟩)
    | ok label =>
      rw [hq] at hshape
      exact Or.inr (Or.inr ⟨label, rfl, hshape⟩)

/-! ## Claim C3: version-resolution errors and the GCS path fallback -/

/-- C3 counterexample: with a store holding no model document, resolution of
`mymodel` fails with `modelNotFound`, yet `_get_gcs_model_path` swallows the
error and returns the non-versioned fallback path `models/mymodel` instead
of propagating the error. -/
theorem C3_fallback_counterexample :
    (getActiveVersionLabel c3EmptyStore 900 [] "mymodel".toList 0).result
        = .error .modelNotFound
    ∧ gcsModelPath c3EmptyStore 900 [] 0 "models/".toList "mymodel".toList
        = "models/mymodel".toList := by
  exact ⟨rfl, rfl⟩

/-- C3 (amended): whenever resolution of a custom name fails (missing model
document, falsy `activeVersionId`, missing version document or falsy
`versionLabel`), the typed error is raised and the version cache is not
populated — but `ModelManager._get_gcs_model_path` catches the error and
serves the non-versioned fallback path `{prefix}{name}` instead of
propagating it. -/
theorem C3_version_error_fallback (store : MetaStore) (ttl : Nat)
    (cache : List (List Char × (List Char × Nat))) (now : Nat)
    (gcsModelPre name : List Char) (e : VersionErr)
    (hname : name.contains '/' = false)
    (herr : (getActiveVersionLabel store ttl cache name now).result = .error e) :
    getActiveVersionLabel store ttl cache name now = ⟨.error e, cache, 1⟩
    ∧ gcsModelPath store ttl cache now gcsModelPre name
        = gcsModelPre ++ pyReplaceChar '/' '-' name := by
  have hshape : getActiveVersionLabel store ttl cache name now = ⟨.error e, cache, 1⟩ := by
    rcases getActiveVersionLabel_result_cases store ttl cache name now hname with
      ⟨label, t0, hlk, hfresh, hout⟩ | ⟨e', hq, hout⟩ | ⟨label, hq, hout⟩
    · rw [hout] at herr
      exact absurd herr (by simp)
    · rw [hout] at herr
      have : e' = e := by
        simpa using herr
      rw [← this]
      exact hout
    · rw [hout] at herr
      exact absurd herr (by simp)
  refine ⟨hshape, ?_⟩
  unfold gcsModelPath
  rw [hname]
  simp [hshape]

/-- Witness for C3 at the concrete empty store. -/
theorem C3_version_error_fallback_witness :
    getActiveVersionLabel c3EmptyStore 900 [] "mymodel".toList 0
        = ⟨.error .modelNotFound, [], 1⟩
    ∧ gcsModelPath c3EmptyStore 900 [] 0 "models/".toList "mymodel".toList
        = "models/".toList ++ pyReplaceChar '/' '-' "mymodel".toList :=
  C3_version_error_fallback c3EmptyStore 900 [] 0 "models/".toList
    "mymodel".toList .modelNotFound (by decide) rfl

/-! ## Claim C6: version cache hits -/

/-- C6: a fresh cache entry is served as-is with no metadata-store query and
no cache change; a stale entry triggers exactly one query; and when a first
call succeeds, a second call within the TTL window issues at most one query
in total across both calls. -/
theorem C6_version_cache_hits :
    (∀ store ttl cache (name : List Char) now label t0,
        name.contains '/' = false →
        assocLookup cache name = some (label, t0) →
        now - t0 < ttl →
        getActiveVersionLabel store ttl cache name now = ⟨.ok (some label), cache, 0⟩) ∧
    (∀ store ttl cache (name : List Char) now label t0,
        name.contains '/' = false →
        assocLookup cache name = some (label, t0) →
        ttl ≤ now - t0 →
        (getActiveVersionLabel store ttl cache name now).queries = 1) ∧
    (∀ store ttl cache (name : List Char) t1 t2 label,
        name.contains '/' = false →
        t2 - t1 < ttl →
        (getActiveVersionLabel store ttl cache name t1).result = .ok (some label) →
        (getActiveVersionLabel store ttl cache name t1).queries +
          (getActiveVersionLabel store ttl
            (getActiveVersionLabel store ttl cache name t1).cache name t2).queries ≤ 1) := by
  refine ⟨?_, ?_, ?_⟩
  · intro store ttl cache name now label t0 hname hlk hfresh
    exact getActiveVersionLabel_hit store ttl cache name now label t0 hname hlk hfresh
  · intro store ttl cache name now label t0 hname hlk hstale
    have hshape := getActiveVersionLabel_miss store ttl cache name now hname
      (by
        intro label' t0' hlk'
        rw [hlk'] at hlk
        obtain ⟨h1, h2⟩ : (label' = label ∧ t0' = t0) := by
          have := Option.some.inj hlk
          exact ⟨congrArg Prod.fst this, congrArg Prod.snd this⟩
        rw [h2]
        exact hstale)
    rw [hshape]
    cases queryActiveVersion store name <;> rfl
  · intro store ttl cache name t1 t2 label hname hwin hok
    rcases getActiveVersionLabel_result_cases store ttl cache name t1 hname with
      ⟨label0, t0, hlk, hfresh, hout⟩ | ⟨e', hq, hout⟩ | ⟨label1, hq, hout⟩
    · rw [hout]
      have h2 := getActiveVersionLabel_queries_le_one store ttl cache name t2
      simpa using h2
    · rw [hout] at hok
      exact absurd hok (by simp)
    · rw [hout]
      have hhit2 := getActiveVersionLabel_hit store ttl
        (assocSet cache name (label1, t1)) name t2 label1 t1 hname
        (assocLookup_set_self cache name (label1, t1)) hwin
      simp [hhit2]

/-- Witness for C6 at a concrete store and cache. -/
theorem C6_version_cache_hits_witness :
    getActiveVersionLabel c6Store 900 c6Cache "assistant".toList 100
      = ⟨.ok (some "v3".toList), c6Cache, 0⟩ :=
  C6_version_cache_hits.1 c6Store 900 c6Cache "assistant".toList 100
    "v3".toList 50 (by decide) (by decide) (by decide)

/-! ## Claim C9: unload/list touch only the primary tables -/

/-- C9: `unload_model` removes the entry (when present) only from the
primary model table and its access-time map, never touching the base-model
tables; `list_loaded_models` lists exactly the primary table's keys; hence
a base model resident only as a dependency never appears in the list and is
untouched by `unload` of its own name. -/
theorem C9_unload_frame (s : CacheState) (n : List Char) :
    (unloadModel s n).baseModels = s.baseModels
    ∧ (unloadModel s n).baseAccessTimes = s.baseAccessTimes
    ∧ (unloadModel s n).loadingLocks = s.loadingLocks
    ∧ (unloadModel s n).models = assocErase s.models n
    ∧ (assocLookup s.models n = none → unloadModel s n = s)
    ∧ (∀ m, m ∈ listLoadedModels s ↔ (assocLookup s.models m).isSome = true)
    ∧ (∀ b, b ∈ s.baseModels → assocLookup s.models b = none →
        b ∉ listLoadedModels s ∧ unloadModel s b = s) := by
  have hlist : ∀ m, m ∈ listLoadedModels s ↔ (assocLookup s.models m).isSome = true := by
    intro m
    rw [assocLookup_isSome_iff_mem_fst]
    exact Iff.rfl
  have hnone : ∀ m, assocLookup s.models m = none → unloadModel s m = s := by
    intro m hm
    unfold unloadModel
    simp [hm]
  have hbase : (unloadModel s n).baseModels = s.baseModels
      ∧ (unloadModel s n).baseAccessTimes = s.baseAccessTimes
      ∧ (unloadModel s n).loadingLocks = s.loadingLocks := by
    unfold unloadModel
    by_cases h : (assocLookup s.models n).isSome = true <;> simp [h]
  have herase : (unloadModel s n).models = assocErase s.models n := by
    unfold unloadModel
    by_cases h : (assocLookup s.models n).isSome = true
    · simp [h]
    · have h' : assocLookup s.models n = none := by
        cases hl : assocLookup s.models n with
        | none => rfl
        | some v => rw [hl] at h; exact absurd rfl h
      simp [h', assocErase_of_lookup_none s.models n h']
  refine ⟨hbase.1, hbase.2.1, hbase.2.2, herase, hnone n, hlist, ?_⟩
  intro b hb hbn
  exact ⟨fun hmem => by
      have := (hlist b).mp hmem
      rw [hbn] at this
      exact absurd this (by simp),
    hnone b hbn⟩

/-- Witness for C9: in `c4ExState` the base `b` is resident only in the
base table, so it is invisible to `list` and `unload "b"` is a no-op. -/
theorem C9_unload_frame_witness :
    unloadModel c4ExState "b".toList = c4ExState
    ∧ "b".toList ∉ listLoadedModels c4ExState :=
  ⟨((C9_unload_frame c4ExState "b".toList).2.2.2.2.2.2 "b".toList
      (by decide) (by decide)).2,
   ((C9_unload_frame c4ExState "b".toList).2.2.2.2.2.2 "b".toList
      (by decide) (by decide)).1⟩

/-! ## Claim C10: prewarm keys models under the normalized id -/

/-- C10: `prewarm` loads under the id with every `/` replaced by `-`, so a
namespaced id becomes resident under a different key than the one inference
looks up, and a later inference request for the raw id runs its own load. -/
theorem C10_prewarm_key_mismatch (s : CacheState) (modelId : List Char)
    (now : Nat)
    (hslash : '/' ∈ modelId)
    (hnorm : assocLookup s.models (pyReplaceChar '/' '-' modelId) = none)
    (hraw : assocLookup s.models modelId = none) :
    pyReplaceChar '/' '-' modelId ≠ modelId
    ∧ (prewarmLoadSingle s modelId now).2 = true
    ∧ assocLookup (prewarmLoadSingle s modelId now).1.models
        (pyReplaceChar '/' '-' modelId) = some none
    ∧ assocLookup (prewarmLoadSingle s modelId now).1.models modelId = none
    ∧ (∀ entry t2,
        (loadModelEntry (prewarmLoadSingle s modelId now).1 modelId entry t2).2
          = true) := by
  have hchar : ∀ x ∈ pyReplaceChar '/' '-' modelId, x ≠ '/' := by
    intro x hx
    unfold pyReplaceChar at hx
    obtain ⟨y, hy, hxy⟩ := List.mem_map.mp hx
    by_cases hy' : y = '/'
    · rw [← hxy, if_pos hy']
      decide
    · rw [← hxy, if_neg hy']
      exact hy'
  have hne : pyReplaceChar '/' '-' modelId ≠ modelId := by
    intro heq
    exact hchar '/' (by rw [heq]; exact hslash) rfl
  have hstep : prewarmLoadSingle s modelId now =
      ({ s with models := assocSet s.models (pyReplaceChar '/' '-' modelId) none,
                accessTimes := assocSet s.accessTimes (pyReplaceChar '/' '-' modelId) now },
       true) := by
    unfold prewarmLoadSingle loadModelEntry
    simp [hnorm]
  refine ⟨hne, ?_, ?_, ?_, ?_⟩
  · rw [hstep]
  · rw [hstep]
    exact assocLookup_set_self s.models (pyReplaceChar '/' '-' modelId) none
  · rw [hstep]
    simpa [assocLookup_set_ne s.models (pyReplaceChar '/' '-' modelId) modelId none
      (fun hh => hne hh.symm)] using hraw
  · intro entry t2
    rw [hstep]
    unfold loadModelEntry
    have : assocLookup (assocSet s.models (pyReplaceChar '/' '-' modelId) none)
        modelId = none := by
      simpa [assocLookup_set_ne s.models (pyReplaceChar '/' '-' modelId) modelId none
        (fun hh => hne hh.symm)] using hraw
    simp [this]

/-- Witness for C10 at the namespaced id `org/name` on an empty cache. -/
theorem C10_prewarm_key_mismatch_witness :
    pyReplaceChar '/' '-' "org/name".toList ≠ "org/name".toList
    ∧ (prewarmLoadSingle ⟨[], [], [], [], []⟩ "org/name".toList 4).2 = true :=
  ⟨(C10_prewarm_key_mismatch ⟨[], [], [], [], []⟩ "org/name".toList 4
      (by decide) (by decide) (by decide)).1,
   (C10_prewarm_key_mismatch ⟨[], [], [], [], []⟩ "org/name".toList 4
      (by decide) (by decide) (by decide)).2.1⟩

/-! ## Claim C1: scope enforcement and the API-key cache -/

/-- C1 (code bug): with the key record served from the TTL cache, the
middleware assigns `key_data`/`key_doc_id` and then falls off the end of
`verify_api_key`, implicitly returning `None`: the expiration check and the
model-scope check are only reached on the cache-miss path.  The same record
freshly queried from the key store yields the 403 the claim (and the spec)
require. -/
theorem C1_cached_key_scope_bypass :
    (verifyApiKey true [] (fun s => s)
        [("sk_k".toList, (c1Record, "d1".toList))] .absent 0 c1Path
        (some "sk_k".toList)).1 = .pyNone
    ∧ (verifyApiKey true [] (fun s => s) [] (.found c1Record "d1".toList) 0
        c1Path (some "sk_k".toList)).1 = .err 403 :=
  ⟨rfl, rfl⟩

/-! ## Claim C7: numerical-stability processor -/

theorem mem_map_fst_assocSet {β : Type} (l : List (List Char × β))
    (k : List Char) (v : β) :
    ∀ x ∈ (assocSet l k v).map Prod.fst, x = k ∨ x ∈ l.map Prod.fst := by
  induction l with
  | nil =>
    intro x hx
    simp only [assocSet, List.map_cons, List.map_nil, List.mem_cons,
      List.not_mem_nil, or_false] at hx
    exact Or.inl hx
  | cons p rest ih =>
    obtain ⟨k₀, v₀⟩ := p
    intro x hx
    by_cases h0 : k₀ = k
    · simp only [assocSet, if_pos h0, List.map_cons, List.mem_cons] at hx
      simp only [List.map_cons, List.mem_cons]
      rcases hx with rfl | hx
      · exact Or.inl rfl
      · exact Or.inr (Or.inr hx)
    · simp only [assocSet, if_neg h0, List.map_cons, List.mem_cons] at hx
      simp only [List.map_cons, List.mem_cons]
      rcases hx with rfl | hx
      · exact Or.inr (Or.inl rfl)
      · rcases ih x hx with rfl | hmem
        · exact Or.inl rfl
        · exact Or.inr (Or.inr hmem)

theorem mem_map_fst_assocErase {β : Type} (l : List (List Char × β))
    (k : List Char) :
    ∀ x ∈ (assocErase l k).map Prod.fst, x ∈ l.map Prod.fst := by
  induction l with
  | nil => intro x hx; exact hx
  | cons p rest ih =>
    obtain ⟨k₀, v₀⟩ := p
    intro x hx
    by_cases h0 : k₀ = k
    · simp only [assocErase, if_pos h0] at hx
      simp only [List.map_cons, List.mem_cons]
      exact Or.inr hx
    · simp only [assocErase, if_neg h0, List.map_cons, List.mem_cons] at hx
      simp only [List.map_cons, List.mem_cons]
      rcases hx with rfl | hx
      · exact Or.inl rfl
      · exact Or.inr (ih x hx)

theorem prepareGenerationKwargs_keys (inputs : TokenInputs) (req : GenRequest)
    (tok : TokenizerIds) (stops : Option (List (List Int))) :
    ∀ x ∈ (prepareGenerationKwargs inputs req tok stops).map Prod.fst,
      x ∈ ["input_ids".toList, "attention_mask".toList, "max_new_tokens".toList,
           "temperature".toList, "do_sample".toList, "top_p".toList,
           "pad_token_id".toList, "eos_token_id".toList, "use_cache".toList,
           "stopping_criteria".toList, "top_k".toList,
           "repetition_penalty".toList, "renormalize_logits".toList] := by
  have h0 : ∀ y ∈ (genKwargsBase inputs req tok).map Prod.fst,
      y ∈ ["input_ids".toList, "attention_mask".toList, "max_new_tokens".toList,
           "temperature".toList, "do_sample".toList, "top_p".toList,
           "pad_token_id".toList, "eos_token_id".toList, "use_cache".toList,
           "stopping_criteria".toList, "top_k".toList,
           "repetition_penalty".toList, "renormalize_logits".toList] := by
    intro y hy
    simp only [genKwargsBase, List.map_cons, List.map_nil, List.mem_cons,
      List.not_mem_nil, or_false] at hy
    simp only [List.mem_cons]
    tauto
  have h1 : ∀ y ∈ (genKwargsWithStops inputs req tok stops).map Prod.fst,
      y ∈ ["input_ids".toList, "attention_mask".toList, "max_new_tokens".toList,
           "temperature".toList, "do_sample".toList, "top_p".toList,
           "pad_token_id".toList, "eos_token_id".toList, "use_cache".toList,
           "stopping_criteria".toList, "top_k".toList,
           "repetition_penalty".toList, "renormalize_logits".toList] := by
    intro y hy
    cases stops with
    | none => exact h0 y hy
    | some l =>
      by_cases hl : l.isEmpty
      · simp only [genKwargsWithStops, if_pos hl] at hy
        exact h0 y hy
      · simp only [genKwargsWithStops, if_neg hl] at hy
        rcases mem_map_fst_assocSet _ _ _ y hy with rfl | hy
        · decide
        · exact h0 y hy
  intro x hx
  unfold prepareGenerationKwargs at hx
  by_cases ht : req.temperature > 0
  · rw [if_pos ht] at hx
    rcases mem_map_fst_assocSet _ _ _ x hx with rfl | hx
    · decide
    rcases mem_map_fst_assocSet _ _ _ x hx with rfl | hx
    · decide
    rcases mem_map_fst_assocSet _ _ _ x hx with rfl | hx
    · decide
    exact h1 x hx
  · rw [if_neg ht] at hx
    have hx := mem_map_fst_assocErase _ _ x hx
    have hx := mem_map_fst_assocErase _ _ x hx
    rcases mem_map_fst_assocSet _ _ _ x hx with rfl | hx
    · decide
    rcases mem_map_fst_assocSet _ _ _ x hx with rfl | hx
    · decide
    exact h1 x hx

theorem stability_condMap (p : FloatVal → Bool) (f : FloatVal → FloatVal)
    (hf : ∀ v, p v = false → f v = v) (l : List FloatVal) :
    (if l.any p then l.map f else l) = l.map f := by
  by_cases h : l.any p = true
  · rw [if_pos h]
  · rw [if_neg h]
    have hnone : ∀ v ∈ l, f v = v := by
      intro v hv
      refine hf v ?_
      cases hp : p v with
      | false => rfl
      | true => exact absurd (List.any_eq_true.mpr ⟨v, hv, hp⟩) h
    symm
    calc l.map f = l.map id := List.map_congr_left hnone
    _ = l := List.map_id l

/-- C7 counterexample: the generation kwargs built for an ordinary sampling
chat request carry no `logits_processor` entry at all — the
numerical-stability processor is never attached. -/
theorem C7_no_processor_counterexample :
    "logits_processor".toList ∉
      (prepareGenerationKwargs c7Inputs c7Request c7Tok (some [[5]])).map
        Prod.fst := by
  intro hmem
  have hk := prepareGenerationKwargs_keys c7Inputs c7Request c7Tok
    (some [[5]]) _ hmem
  revert hk
  decide

/-- C7 (amended): `NumericalStabilityLogitsProcessor.__call__` maps NaN to
the negative sentinel, `+inf` to the clamped maximum, `-inf` to the clamped
minimum, and is the identity on all-finite scores — but no generation
configuration produced by `_prepare_generation_kwargs` contains a
`logits_processor` key, so the processor is never active in generation. -/
theorem C7_stability_processor_amended :
    (∀ inputs req tok stops,
        "logits_processor".toList ∉
          (prepareGenerationKwargs inputs req tok stops).map Prod.fst)
    ∧ (∀ scores, numericalStabilityProcess defaultStabilityParams scores
        = scores.map (stabilizeVal defaultStabilityParams))
    ∧ (∀ scores, (∀ v ∈ scores, isFiniteF v = true) →
        numericalStabilityProcess defaultStabilityParams scores = scores) := by
  have hpoint : ∀ scores, numericalStabilityProcess defaultStabilityParams scores
      = scores.map (stabilizeVal defaultStabilityParams) := by
    intro scores
    unfold numericalStabilityProcess
    set P := defaultStabilityParams with hP
    have hnanMap := stability_condMap isNanF
      (fun v => if isNanF v then .finite P.nanReplacement else v)
      (by intro v hv; simp [hv]) scores
    by_cases hn : scores.any isNanF = true <;>
      by_cases hi : scores.any isInfFV = true
    · simp only [hn, hi, Bool.or_self, Bool.not_true, Bool.false_eq_true,
        if_false, if_true]
      rw [stability_condMap isPosInfF _
          (by intro v hv; simp [hv]),
        stability_condMap isNegInfF _
          (by intro v hv; simp [hv]),
        List.map_map, List.map_map]
      refine List.map_congr_left ?_
      intro v hv
      cases v <;> rfl
    · simp only [hn, hi, Bool.or_false, Bool.not_true, Bool.false_eq_true,
        if_false, if_true]
      refine List.map_congr_left ?_
      intro v hv
      have hvi : isInfFV v = false := by
        cases hvi : isInfFV v with
        | false => rfl
        | true => exact absurd (List.any_eq_true.mpr ⟨v, hv, hvi⟩) hi
      cases v with
      | nan => rfl
      | posInf => exact absurd hvi (by simp [isInfFV, isPosInfF])
      | negInf => exact absurd hvi (by simp [isInfFV, isNegInfF])
      | finite q => simp [stabilizeVal, isNanF]
    · simp only [hn, hi, Bool.false_or, Bool.not_true, Bool.false_eq_true,
        if_false, if_true]
      rw [stability_condMap isPosInfF _
          (by intro v hv; simp [hv]),
        stability_condMap isNegInfF _
          (by intro v hv; simp [hv]),
        List.map_map]
      refine List.map_congr_left ?_
      intro v hv
      have hvn : isNanF v = false := by
        cases hvn : isNanF v with
        | false => rfl
        | true => exact absurd (List.any_eq_true.mpr ⟨v, hv, hvn⟩) hn
      cases v with
      | nan => exact absurd hvn (by simp [isNanF])
      | posInf => rfl
      | negInf => rfl
      | finite q => rfl
    · have hb : (scores.any isNanF || scores.any isInfFV) = false := by
        simp [hn, hi]
      simp only [hb, Bool.not_false, if_true]
      symm
      have : ∀ v ∈ scores, stabilizeVal P v = v := by
        intro v hv
        have hvn : isNanF v = false := by
          cases hvn : isNanF v with
          | false => rfl
          | true => exact absurd (List.any_eq_true.mpr ⟨v, hv, hvn⟩) hn
        have hvi : isInfFV v = false := by
          cases hvi : isInfFV v with
          | false => rfl
          | true => exact absurd (List.any_eq_true.mpr ⟨v, hv, hvi⟩) hi
        cases v with
        | nan => exact absurd hvn (by simp [isNanF])
        | posInf => exact absurd hvi (by simp [isInfFV, isPosInfF])
        | negInf => exact absurd hvi (by simp [isInfFV, isNegInfF])
        | finite q => rfl
      calc scores.map (stabilizeVal P) = scores.map id := List.map_congr_left this
      _ = scores := List.map_id scores
  refine ⟨?_, hpoint, ?_⟩
  · intro inputs req tok stops hmem
    have := prepareGenerationKwargs_keys inputs req tok stops _ hmem
    revert this
    decide
  · intro scores hfin
    rw [hpoint]
    have : ∀ v ∈ scores, stabilizeVal defaultStabilityParams v = v := by
      intro v hv
      cases v with
      | finite q => rfl
      | nan => exact absurd (hfin _ hv) (by simp [isFiniteF])
      | posInf => exact absurd (hfin _ hv) (by simp [isFiniteF])
      | negInf => exact absurd (hfin _ hv) (by simp [isFiniteF])
    calc scores.map (stabilizeVal defaultStabilityParams)
        = scores.map id := List.map_congr_left this
    _ = scores := List.map_id scores

/-- Witness for C7's amended no-op clause on concrete finite scores. -/
theorem C7_stability_processor_amended_witness :
    numericalStabilityProcess defaultStabilityParams
        [.finite 1, .finite (-3), .finite 0]
      = [.finite 1, .finite (-3), .finite 0] :=
  C7_stability_processor_amended.2.2 [.finite 1, .finite (-3), .finite 0]
    (by decide)

/-! ## Claim C5: token-level stopping criterion -/

theorem pyTailSlice_eq_iff (gen s : List Int) (hlen : s.length ≤ gen.length)
    (hs : s ≠ []) :
    pyTailSlice gen s.length = s ↔ ∃ p, gen = p ++ s := by
  unfold pyTailSlice
  rw [if_neg (fun h0 => hs (List.eq_nil_of_length_eq_zero h0))]
  constructor
  · intro h
    refine ⟨gen.take (gen.length - s.length), ?_⟩
    conv_lhs => rw [← List.take_append_drop (gen.length - s.length) gen]
    rw [h]
  · rintro ⟨p, rfl⟩
    have hp : (p ++ s).length - s.length = p.length := by
      simp
    rw [hp, List.drop_left]

theorem sliding_window_iff (gen s : List Int) (hlen : s.length ≤ gen.length) :
    ((List.range (gen.length - s.length + 1)).any
        fun i => ((gen.drop i).take s.length == s)) = true ↔
      ∃ a b, gen = a ++ s ++ b := by
  rw [List.any_eq_true]
  constructor
  · rintro ⟨i, hi, hmatch⟩
    rw [List.mem_range] at hi
    have heq : (gen.drop i).take s.length = s := by
      exact beq_iff_eq.mp hmatch
    refine ⟨gen.take i, gen.drop (i + s.length), ?_⟩
    have h2 : gen.drop i = s ++ gen.drop (i + s.length) := by
      conv_lhs => rw [← List.take_append_drop s.length (gen.drop i)]
      rw [heq, List.drop_drop]
    conv_lhs => rw [← List.take_append_drop i gen, h2]
    rw [List.append_assoc]
  · rintro ⟨a, b, rfl⟩
    refine ⟨a.length, ?_, ?_⟩
    · rw [List.mem_range]
      have h : (a ++ s ++ b).length = a.length + (s.length + b.length) := by
        simp
      omega
    · have hdrop : (a ++ s ++ b).drop a.length = s ++ b := by
        rw [List.append_assoc, List.drop_left]
      rw [hdrop, List.take_left]
      simp

theorem stopHit_iff (gen s : List Int) :
    stopHit gen s = true ↔
      ((∃ p, gen = p ++ s) ∨ (∃ x, s = [x] ∧ x ∈ gen) ∨
       (2 ≤ s.length ∧ ∃ a b, gen = a ++ s ++ b)) := by
  by_cases hlen : s.length ≤ gen.length
  · cases s with
    | nil =>
      constructor
      · intro _
        exact Or.inl ⟨gen, by simp⟩
      · intro _
        unfold stopHit
        rw [if_pos (show gen.length ≥ ([] : List Int).length from
          Nat.zero_le gen.length)]
        have hB : (if ([] : List Int).length = 1 then
              gen.contains ([] : List Int).headI
            else (List.range (gen.length - ([] : List Int).length + 1)).any
              fun i => ((gen.drop i).take ([] : List Int).length
                == ([] : List Int))) = true := by
          rw [if_neg (by simp)]
          refine List.any_eq_true.mpr ⟨0, ?_, by simp⟩
          rw [List.mem_range]
          omega
        rw [hB, Bool.or_true]
    | cons c cs =>
      unfold stopHit
      rw [if_pos hlen, Bool.or_eq_true]
      by_cases hone : (c :: cs).length = 1
      · have hcs : cs = [] := by
          simpa using hone
        subst hcs
        rw [if_pos hone]
        constructor
        · rintro (htail | hmem)
          · exact Or.inl ((pyTailSlice_eq_iff gen [c] hlen (by simp)).mp
              (beq_iff_eq.mp htail))
          · exact Or.inr (Or.inl ⟨c, rfl, List.elem_iff.mp hmem⟩)
        · rintro (⟨p, rfl⟩ | ⟨x, hx, hmem⟩ | ⟨h2, -⟩)
          · exact Or.inl (beq_iff_eq.mpr
              ((pyTailSlice_eq_iff (p ++ [c]) [c] hlen (by simp)).mpr ⟨p, rfl⟩))
          · obtain ⟨h1, -⟩ := List.cons_eq_cons.mp hx
            exact Or.inr (List.elem_iff.mpr (h1.symm ▸ hmem))
          · simp at h2
      · rw [if_neg hone]
        have h2 : 2 ≤ (c :: cs).length := by
          have h1 : 1 ≤ (c :: cs).length := by simp
          omega
        constructor
        · rintro (htail | hwin)
          · exact Or.inl ((pyTailSlice_eq_iff gen (c :: cs) hlen (by simp)).mp
              (beq_iff_eq.mp htail))
          · exact Or.inr (Or.inr ⟨h2,
              (sliding_window_iff gen (c :: cs) hlen).mp hwin⟩)
        · rintro (⟨p, rfl⟩ | ⟨x, hx, -⟩ | ⟨-, hab⟩)
          · exact Or.inl (beq_iff_eq.mpr
              ((pyTailSlice_eq_iff (p ++ (c :: cs)) (c :: cs) hlen (by simp)).mpr
                ⟨p, rfl⟩))
          · rw [hx] at hone
            simp at hone
          · exact Or.inr ((sliding_window_iff gen (c :: cs) hlen).mpr hab)
  · constructor
    · intro h
      unfold stopHit at h
      rw [if_neg (by simpa [ge_iff_le] using hlen)] at h
      exact absurd h (by simp)
    · rintro (⟨p, rfl⟩ | ⟨x, rfl, hmem⟩ | ⟨-, a, b, rfl⟩)
      · refine absurd ?_ hlen
        simp only [List.length_append]
        omega
      · refine absurd ?_ hlen
        have hpos := List.length_pos_of_mem hmem
        simp only [List.length_singleton]
        omega
      · refine absurd ?_ hlen
        simp only [List.length_append]
        omega

/-- C5: `StopOnTokens.__call__` returns True iff, within the tokens
generated after the prompt, some stop sequence matches the tail, or a
single-token stop appears anywhere, or a multi-token stop matches at some
sliding-window position. -/
theorem C5_stop_on_tokens_iff (stopTokenIds : List (List Int))
    (promptLength : Nat) (inputIds : List Int) :
    stopOnTokens stopTokenIds promptLength inputIds = true ↔
      c5ClaimStops stopTokenIds (inputIds.drop promptLength) := by
  unfold stopOnTokens c5ClaimStops
  rw [List.any_eq_true]
  exact exists_congr fun s =>
    and_congr Iff.rfl (stopHit_iff (inputIds.drop promptLength) s)

/-! ## Claim C4: eviction never removes a referenced base -/

theorem minByVal_spec {α : Type} (l : List (α × Nat)) (m : α × Nat)
    (h : minByVal l = some m) : m ∈ l ∧ ∀ x ∈ l, m.2 ≤ x.2 := by
  have key : ∀ (xs : List (α × Nat)) (acc : α × Nat),
      (xs.foldl (fun b y => if y.2 < b.2 then y else b) acc = acc ∨
       xs.foldl (fun b y => if y.2 < b.2 then y else b) acc ∈ xs) ∧
      (xs.foldl (fun b y => if y.2 < b.2 then y else b) acc).2 ≤ acc.2 ∧
      (∀ x ∈ xs, (xs.foldl (fun b y => if y.2 < b.2 then y else b) acc).2 ≤ x.2) := by
    intro xs
    induction xs with
    | nil =>
      intro acc
      exact ⟨Or.inl rfl, Nat.le_refl _, by simp⟩
    | cons y ys ih =>
      intro acc
      simp only [List.foldl_cons]
      by_cases hc : y.2 < acc.2
      · rw [if_pos hc]
        obtain ⟨hmem, hle, hall⟩ := ih y
        refine ⟨?_, ?_, ?_⟩
        · rcases hmem with heq | hmem
          · exact Or.inr (by rw [heq]; exact List.mem_cons_self y ys)
          · exact Or.inr (List.mem_cons_of_mem y hmem)
        · omega
        · intro x hx
          rcases List.mem_cons.mp hx with rfl | hx
          · exact hle
          · exact hall x hx
      · rw [if_neg hc]
        obtain ⟨hmem, hle, hall⟩ := ih acc
        refine ⟨?_, hle, ?_⟩
        · rcases hmem with heq | hmem
          · exact Or.inl heq
          · exact Or.inr (List.mem_cons_of_mem y hmem)
        · intro x hx
          rcases List.mem_cons.mp hx with rfl | hx
          · omega
          · exact hall x hx
  cases l with
  | nil => exact absurd h (by simp [minByVal])
  | cons x xs =>
    have hm : m = xs.foldl (fun b y => if y.2 < b.2 then y else b) x := by
      have := h
      simp only [minByVal] at this
      exact (Option.some.inj this).symm
    obtain ⟨hmem, hle, hall⟩ := key xs x
    constructor
    · rcases hmem with heq | hmem
      · rw [hm, heq]; exact List.mem_cons_self x xs
      · rw [hm]; exact List.mem_cons_of_mem x hmem
    · intro z hz
      rcases List.mem_cons.mp hz with rfl | hz
      · rw [hm]; exact hle
      · rw [hm]; exact hall z hz

theorem minByVal_eq_none {α : Type} (l : List (α × Nat)) :
    minByVal l = none ↔ l = [] := by
  cases l <;> simp [minByVal]

theorem find?_split {α : Type} (p : α → Bool) (l : List α) (a : α)
    (h : l.find? p = some a) :
    ∃ l₁ l₂, l = l₁ ++ a :: l₂ ∧ ∀ x ∈ l₁, p x = false := by
  induction l with
  | nil => exact absurd h (by simp)
  | cons y ys ih =>
    by_cases hy : p y = true
    · rw [List.find?_cons_of_pos _ hy] at h
      obtain rfl := Option.some.inj h
      exact ⟨[], ys, rfl, by simp⟩
    · have hyf : p y = false := by
        cases hpy : p y with
        | false => rfl
        | true => exact absurd hpy hy
      rw [List.find?_cons_of_neg _ (by simp [hyf])] at h
      obtain ⟨l₁, l₂, rfl, hl₁⟩ := ih h
      refine ⟨y :: l₁, l₂, rfl, ?_⟩
      intro x hx
      rcases List.mem_cons.mp hx with rfl | hx
      · exact hyf
      · exact hl₁ x hx

theorem mem_insertByVal {α : Type} (x a : α × Nat) (l : List (α × Nat)) :
    a ∈ insertByVal x l ↔ a = x ∨ a ∈ l := by
  induction l with
  | nil => simp [insertByVal]
  | cons y ys ih =>
    simp only [insertByVal]
    by_cases hc : y.2 < x.2
    · rw [if_pos hc]
      simp only [List.mem_cons, ih]
      tauto
    · rw [if_neg hc]
      simp only [List.mem_cons]

theorem mem_pySortByVal {α : Type} (a : α × Nat) (l : List (α × Nat)) :
    a ∈ pySortByVal l ↔ a ∈ l := by
  induction l with
  | nil => simp [pySortByVal]
  | cons y ys ih =>
    simp only [pySortByVal, mem_insertByVal, List.mem_cons, ih]

theorem pairwise_insertByVal {α : Type} (x : α × Nat) (l : List (α × Nat))
    (hl : l.Pairwise (fun a b => a.2 ≤ b.2)) :
    (insertByVal x l).Pairwise (fun a b => a.2 ≤ b.2) := by
  induction l with
  | nil => simp [insertByVal]
  | cons y ys ih =>
    simp only [insertByVal]
    rw [List.pairwise_cons] at hl
    obtain ⟨hy, hys⟩ := hl
    by_cases hc : y.2 < x.2
    · rw [if_pos hc]
      rw [List.pairwise_cons]
      refine ⟨?_, ih hys⟩
      intro z hz
      rcases (mem_insertByVal x z ys).mp hz with rfl | hz
      · omega
      · exact hy z hz
    · rw [if_neg hc]
      rw [List.pairwise_cons]
      refine ⟨?_, List.Pairwise.cons hy hys⟩
      intro z hz
      rcases List.mem_cons.mp hz with rfl | hz
      · omega
      · have := hy z hz
        omega

theorem pairwise_pySortByVal {α : Type} (l : List (α × Nat)) :
    (pySortByVal l).Pairwise (fun a b => a.2 ≤ b.2) := by
  induction l with
  | nil => simp [pySortByVal]
  | cons y ys ih => exact pairwise_insertByVal y (pySortByVal ys) ih

/-- The element `find?` returns on a value-sorted list has minimal value
among all satisfying elements of the original list. -/
theorem find?_pySort_min {α : Type} [DecidableEq α] (l : List (α × Nat))
    (p : α × Nat → Bool) (a : α × Nat)
    (h : (pySortByVal l).find? p = some a) :
    a ∈ l ∧ p a = true ∧ ∀ x ∈ l, p x = true → a.2 ≤ x.2 := by
  have hsa := List.find?_some h
  have hamem : a ∈ l := (mem_pySortByVal a l).mp (List.mem_of_find?_eq_some h)
  refine ⟨hamem, hsa, ?_⟩
  intro x hx hpx
  obtain ⟨l₁, l₂, hsplit, hl₁⟩ := find?_split p (pySortByVal l) a h
  have hxmem : x ∈ pySortByVal l := (mem_pySortByVal x l).mpr hx
  rw [hsplit] at hxmem
  rcases List.mem_append.mp hxmem with hx1 | hx2
  · exact absurd hpx (by simp [hl₁ x hx1])
  · rcases List.mem_cons.mp hx2 with rfl | hx2
    · exact Nat.le_refl _
    · have hpw := pairwise_pySortByVal l
      rw [hsplit] at hpw
      have := (List.pairwise_append.mp hpw).2.1
      rw [List.pairwise_cons] at this
      exact this.1 x hx2

theorem delKey_eq_some {β : Type} (l : List (List Char × β)) (k : List Char)
    (h : (assocLookup l k).isSome = true) :
    delKey l k = some (assocErase l k) := by
  unfold delKey
  rw [if_pos h]

theorem mem_fineTunedATs (s : CacheState) (p : List Char × Nat) :
    p ∈ fineTunedATs s ↔
      p ∈ s.accessTimes ∧ ∃ b, assocLookup s.models p.1 = some (some b) := by
  unfold fineTunedATs
  rw [List.mem_filter]
  refine and_congr Iff.rfl ?_
  cases hlk : assocLookup s.models p.1 with
  | none => simp
  | some o =>
    cases o with
    | none => simp
    | some b => simp

theorem evict_empty_branch (s : CacheState)
    (hguard : (s.models.isEmpty && s.baseModels.isEmpty) = true) :
    evictLruModel s = some s := by
  unfold evictLruModel
  rw [if_pos hguard]

theorem evict_ft_branch (s : CacheState) (md : List Char × Nat)
    (hguard : ¬ (s.models.isEmpty && s.baseModels.isEmpty) = true)
    (hft : minByVal (fineTunedATs s) = some md)
    (h1 : (assocLookup s.models md.1).isSome = true)
    (h2 : (assocLookup s.accessTimes md.1).isSome = true) :
    evictLruModel s = some
      { s with models := assocErase s.models md.1,
               accessTimes := assocErase s.accessTimes md.1,
               loadingLocks := s.loadingLocks.erase md.1 } := by
  unfold evictLruModel delKey
  rw [if_neg hguard, hft]
  dsimp only
  rw [if_pos h1, if_pos h2]

theorem evict_plain_branch (s : CacheState) (md : List Char × Nat)
    (hguard : ¬ (s.models.isEmpty && s.baseModels.isEmpty) = true)
    (hft : minByVal (fineTunedATs s) = none)
    (hm : s.models.isEmpty = false)
    (hmin : minByVal s.accessTimes = some md)
    (h1 : (assocLookup s.models md.1).isSome = true)
    (h2 : (assocLookup s.accessTimes md.1).isSome = true) :
    evictLruModel s = some
      { s with models := assocErase s.models md.1,
               accessTimes := assocErase s.accessTimes md.1,
               loadingLocks := s.loadingLocks.erase md.1 } := by
  unfold evictLruModel delKey
  rw [if_neg hguard, hft]
  dsimp only
  rw [hm]
  simp only [Bool.not_false, if_true]
  rw [hmin]
  dsimp only
  rw [if_pos h1, if_pos h2]

theorem evict_base_branch (s : CacheState) (bp : List Char × Nat)
    (hguard : ¬ (s.models.isEmpty && s.baseModels.isEmpty) = true)
    (hft : minByVal (fineTunedATs s) = none)
    (hm : s.models.isEmpty = true)
    (hfind : (pySortByVal s.baseAccessTimes).find?
        (fun p => (fineTunedUsing s p.1).isEmpty) = some bp)
    (h1 : bp.1 ∈ s.baseModels)
    (h2 : (assocLookup s.baseAccessTimes bp.1).isSome = true) :
    evictLruModel s = some
      { s with baseModels := s.baseModels.erase bp.1,
               baseAccessTimes := assocErase s.baseAccessTimes bp.1 } := by
  unfold evictLruModel delKey delName
  rw [if_neg hguard, hft]
  dsimp only
  rw [hm]
  simp only [Bool.not_true, Bool.false_eq_true, if_false]
  rw [hfind]
  dsimp only
  rw [if_pos h1, if_pos h2]

theorem evict_base_none_branch (s : CacheState)
    (hguard : ¬ (s.models.isEmpty && s.baseModels.isEmpty) = true)
    (hft : minByVal (fineTunedATs s) = none)
    (hm : s.models.isEmpty = true)
    (hfind : (pySortByVal s.baseAccessTimes).find?
        (fun p => (fineTunedUsing s p.1).isEmpty) = none) :
    evictLruModel s = some s := by
  unfold evictLruModel
  rw [if_neg hguard, hft]
  dsimp only
  rw [hm]
  simp only [Bool.not_true, Bool.false_eq_true, if_false]
  rw [hfind]

theorem isEmpty_true_iff {α : Type} (l : List α) : l.isEmpty = true ↔ l = [] := by
  cases l <;> simp

theorem assoc_val_unique {β : Type} (l : List (List Char × β))
    (hnd : (l.map Prod.fst).Nodup) (k : List Char) (v1 v2 : β) :
    (k, v1) ∈ l → (k, v2) ∈ l → v1 = v2 := by
  induction l with
  | nil => intro h; exact absurd h (by simp)
  | cons p rest ih =>
    obtain ⟨k₀, v₀⟩ := p
    simp only [List.map_cons, List.nodup_cons] at hnd
    obtain ⟨hk₀, hnd'⟩ := hnd
    intro h1 h2
    rcases List.mem_cons.mp h1 with he1 | hm1
    · rcases List.mem_cons.mp h2 with he2 | hm2
      · rw [Prod.mk.injEq] at he1 he2
        exact he1.2.trans he2.2.symm
      · rw [Prod.mk.injEq] at he1
        obtain ⟨hk, -⟩ := he1
        subst hk
        exact absurd (show k ∈ List.map Prod.fst rest from
          List.mem_map_of_mem Prod.fst hm2) hk₀
    · rcases List.mem_cons.mp h2 with he2 | hm2
      · rw [Prod.mk.injEq] at he2
        obtain ⟨hk, -⟩ := he2
        subst hk
        exact absurd (show k ∈ List.map Prod.fst rest from
          List.mem_map_of_mem Prod.fst hm1) hk₀
      · exact ih hnd' hm1 hm2

/-- C4: one `_evict_lru_model` step, on tables whose key sets are in sync
and duplicate-free, never removes a base model referenced by a resident
fine-tuned entry; it prefers the LRU fine-tuned entry (leaving the base
tables untouched), evicts a base only when its refcount is zero and only
the LRU such base, and preserves the adapted-implies-base residency
invariant. -/
theorem C4_eviction_respects_base_refcount (s : CacheState)
    (hsync : s.models.map Prod.fst = s.accessTimes.map Prod.fst)
    (hbsync : s.baseModels = s.baseAccessTimes.map Prod.fst)
    (hnd : (s.models.map Prod.fst).Nodup)
    (hbnd : (s.baseAccessTimes.map Prod.fst).Nodup) :
    ∃ s', evictLruModel s = some s'
    ∧ (∀ b, fineTunedUsing s b ≠ [] → b ∈ s.baseModels → b ∈ s'.baseModels)
    ∧ (∀ b, b ∈ s.baseModels → b ∉ s'.baseModels → fineTunedUsing s b = [])
    ∧ (fineTunedATs s ≠ [] →
        s'.baseModels = s.baseModels ∧
        ∃ m, minByVal (fineTunedATs s) = some m ∧
          (∀ x ∈ fineTunedATs s, m.2 ≤ x.2) ∧
          s'.models = assocErase s.models m.1)
    ∧ (∀ b, b ∈ s.baseModels → b ∉ s'.baseModels →
        ∀ tb, (b, tb) ∈ s.baseAccessTimes →
          ∀ q tq, (q, tq) ∈ s.baseAccessTimes → fineTunedUsing s q = [] →
            tb ≤ tq)
    ∧ ((∀ m bb, assocLookup s.models m = some (some bb) → bb ∈ s.baseModels) →
        ∀ m bb, assocLookup s'.models m = some (some bb) → bb ∈ s'.baseModels) := by
  have hftOfNil : s.models = [] → fineTunedATs s = [] := by
    intro hmn
    have hat : s.accessTimes = [] := by
      have h1 : s.accessTimes.map Prod.fst = [] := by
        rw [← hsync, hmn]
        rfl
      exact List.map_eq_nil.mp h1
    unfold fineTunedATs
    rw [hat]
    rfl
  by_cases hguard : (s.models.isEmpty && s.baseModels.isEmpty) = true
  · obtain ⟨hme, hbe⟩ : s.models.isEmpty = true ∧ s.baseModels.isEmpty = true := by
      simpa using hguard
    refine ⟨s, evict_empty_branch s hguard, ?_, ?_, ?_, ?_, ?_⟩
    · intro b _ hb
      exact hb
    · intro b hb hnb
      exact absurd hb hnb
    · intro hft
      exact absurd (hftOfNil ((isEmpty_true_iff s.models).mp hme)) hft
    · intro b hb hnb
      exact absurd hb hnb
    · intro hinv
      exact hinv
  · cases hft : minByVal (fineTunedATs s) with
    | some md =>
      obtain ⟨hmemft, hmin⟩ := minByVal_spec _ md hft
      obtain ⟨hmemAT, bmd, hlkmd⟩ := (mem_fineTunedATs s md).mp hmemft
      have h1 : (assocLookup s.models md.1).isSome = true := by
        rw [hlkmd]
        rfl
      have h2 : (assocLookup s.accessTimes md.1).isSome = true := by
        rw [assocLookup_isSome_iff_mem_fst]
        exact List.mem_map_of_mem Prod.fst hmemAT
      refine ⟨_, evict_ft_branch s md hguard hft h1 h2, ?_, ?_, ?_, ?_, ?_⟩
      · intro b _ hb
        exact hb
      · intro b hb hnb
        exact absurd hb hnb
      · intro _
        exact ⟨rfl, md, rfl, hmin, rfl⟩
      · intro b hb hnb
        exact absurd hb hnb
      · intro hinv m bb hlk
        have hlk' : assocLookup (assocErase s.models md.1) m = some (some bb) := hlk
        rw [assocLookup_erase_of_nodup s.models md.1 m hnd] at hlk'
        by_cases hm : m = md.1
        · rw [if_pos hm] at hlk'
          exact absurd hlk' (by simp)
        · rw [if_neg hm] at hlk'
          exact hinv m bb hlk'
    | none =>
      have hftEmpty : fineTunedATs s = [] := (minByVal_eq_none _).mp hft
      by_cases hm : s.models.isEmpty = true
      · have hModelsNil : s.models = [] := (isEmpty_true_iff s.models).mp hm
        cases hfind : (pySortByVal s.baseAccessTimes).find?
            (fun p => (fineTunedUsing s p.1).isEmpty) with
        | none =>
          refine ⟨s, evict_base_none_branch s hguard hft hm hfind,
            ?_, ?_, ?_, ?_, ?_⟩
          · intro b _ hb
            exact hb
          · intro b hb hnb
            exact absurd hb hnb
          · intro hc
            exact absurd hftEmpty hc
          · intro b hb hnb
            exact absurd hb hnb
          · intro hinv
            exact hinv
        | some bp =>
          obtain ⟨hbpmem, hbp, hbpmin⟩ :=
            find?_pySort_min s.baseAccessTimes _ bp hfind
          have h1 : bp.1 ∈ s.baseModels := by
            rw [hbsync]
            exact List.mem_map_of_mem Prod.fst hbpmem
          have h2 : (assocLookup s.baseAccessTimes bp.1).isSome = true := by
            rw [assocLookup_isSome_iff_mem_fst]
            exact List.mem_map_of_mem Prod.fst hbpmem
          have hbpEmpty : fineTunedUsing s bp.1 = [] := by
            have := hbp
            simpa [isEmpty_true_iff] using this
          refine ⟨_, evict_base_branch s bp hguard hft hm hfind h1 h2,
            ?_, ?_, ?_, ?_, ?_⟩
          · intro b hbne hb
            have hne : b ≠ bp.1 := fun he => hbne (he ▸ hbpEmpty)
            exact (List.mem_erase_of_ne hne).mpr hb
          · intro b hb hnb
            by_cases he : b = bp.1
            · rw [he]
              exact hbpEmpty
            · exact absurd ((List.mem_erase_of_ne he).mpr hb) hnb
          · intro hc
            exact absurd hftEmpty hc
          · intro b hb hnb tb htb q tq hq hqz
            have hbbp : b = bp.1 := by
              by_contra hne
              exact hnb ((List.mem_erase_of_ne hne).mpr hb)
            have htb' : tb = bp.2 := by
              refine assoc_val_unique s.baseAccessTimes hbnd bp.1 tb bp.2 ?_ ?_
              · rw [← hbbp]
                exact htb
              · exact hbpmem
            rw [htb']
            refine hbpmin (q, tq) hq ?_
            simp [hqz]
          · intro hinv m bb hlk
            have hlk' : assocLookup s.models m = some (some bb) := hlk
            rw [hModelsNil] at hlk'
            exact absurd hlk' (by simp [assocLookup])
      · have hmf : s.models.isEmpty = false := by
          cases hmv : s.models.isEmpty with
          | false => rfl
          | true => exact absurd hmv hm
        cases hminv : minByVal s.accessTimes with
        | none =>
          exfalso
          have hat : s.accessTimes = [] := (minByVal_eq_none _).mp hminv
          have h1 : s.models.map Prod.fst = [] := by
            rw [hsync, hat]
            rfl
          have h2 : s.models = [] := List.map_eq_nil.mp h1
          rw [h2] at hmf
          exact absurd hmf (by simp)
        | some md =>
          obtain ⟨hmdmem, -⟩ := minByVal_spec _ md hminv
          have h2 : (assocLookup s.accessTimes md.1).isSome = true := by
            rw [assocLookup_isSome_iff_mem_fst]
            exact List.mem_map_of_mem Prod.fst hmdmem
          have h1 : (assocLookup s.models md.1).isSome = true := by
            rw [assocLookup_isSome_iff_mem_fst, hsync,
              ← assocLookup_isSome_iff_mem_fst]
            exact h2
          refine ⟨_, evict_plain_branch s md hguard hft hmf hminv h1 h2,
            ?_, ?_, ?_, ?_, ?_⟩
          · intro b _ hb
            exact hb
          · intro b hb hnb
            exact absurd hb hnb
          · intro hc
            exact absurd hftEmpty hc
          · intro b hb hnb
            exact absurd hb hnb
          · intro hinv m bb hlk
            have hlk' : assocLookup (assocErase s.models md.1) m
                = some (some bb) := hlk
            rw [assocLookup_erase_of_nodup s.models md.1 m hnd] at hlk'
            by_cases hmq : m = md.1
            · rw [if_pos hmq] at hlk'
              exact absurd hlk' (by simp)
            · rw [if_neg hmq] at hlk'
              exact hinv m bb hlk'

/-- Witness for C4 at the concrete state `c4ExState`: the LRU fine-tuned
entry is evicted and the referenced base `b` survives. -/
theorem C4_eviction_respects_base_refcount_witness :
    ∃ s', evictLruModel c4ExState = some s'
      ∧ "b".toList ∈ s'.baseModels := by
  obtain ⟨s', hev, ha, -, -, -, -⟩ :=
    C4_eviction_respects_base_refcount c4ExState (by decide) (by decide)
      (by decide) (by decide)
  exact ⟨s', hev, ha "b".toList (by decide) (by decide)⟩

/-! ## Claim C2: streaming stop-string splicing -/

theorem find?_sub_singleton (s acc : List Char) :
    List.find? (fun stopStr => isSubOf stopStr acc) [s]
      = if isSubOf s acc then some s else none := by
  cases hp : isSubOf s acc <;> simp [List.find?, hp]

theorem sub_take_of_append_false (s u v : List Char) (m : Nat)
    (h : isSubOf s (u ++ v) = false) : isSubOf s (v.take m) = false := by
  cases hv : isSubOf s (v.take m) with
  | false => rfl
  | true =>
    exfalso
    have hbig : isSubOf s (u ++ v.take m ++ v.drop m) = true :=
      isSubOf_of_isSubOf_infix hv
    rw [List.append_assoc, List.take_append_drop] at hbig
    rw [hbig] at h
    exact absurd h (by simp)

/-- The chunk the stop branch emits lies strictly before the first stop
occurrence in the accumulated text, so it cannot contain the stop. -/
theorem stop_chunk_no_sub (s accum text : List Char) (hs : s ≠ []) :
    isSubOf s (text.take (firstOcc s (accum ++ text) -
      ((accum ++ text).length - text.length))) = false := by
  have hlen : (accum ++ text).length - text.length = accum.length := by
    simp
  rw [hlen]
  by_cases hp : firstOcc s (accum ++ text) ≤ accum.length
  · have h0 : firstOcc s (accum ++ text) - accum.length = 0 := by omega
    rw [h0, List.take_zero]
    exact isSubOf_nil_of_ne hs
  · have hle : accum.length ≤ firstOcc s (accum ++ text) := by omega
    cases hv : isSubOf s
        (text.take (firstOcc s (accum ++ text) - accum.length)) with
    | false => rfl
    | true =>
      exfalso
      have hts : (accum ++ text).take (firstOcc s (accum ++ text))
          = accum ++ text.take (firstOcc s (accum ++ text) - accum.length) := by
        rw [List.take_append_eq_append_take]
        congr 1
        exact List.take_of_length_le hle
      have hsub2 : isSubOf s
          ((accum ++ text).take (firstOcc s (accum ++ text))) = true := by
        rw [hts]
        have hmono := isSubOf_of_isSubOf_infix
          (x := accum) (y := ([] : List Char)) hv
        simpa using hmono
      rw [firstOcc_take_not_sub hs] at hsub2
      exact absurd hsub2 (by simp)

/-- One splicing-loop iteration preserves: while running, the accumulated
text contains no stop, and no emitted content delta contains the stop. -/
theorem chatStreamStep_preserves (s : List Char) (hs : s ≠ [])
    (st : StreamState) (raw : List Char)
    (h1 : st.stopped = false → isSubOf s st.accumulated = false)
    (h2 : ∀ f ∈ st.emitted, isSubOf s f = false) :
    ((chatStreamStep [s] st raw).stopped = false →
        isSubOf s (chatStreamStep [s] st raw).accumulated = false)
    ∧ (∀ f ∈ (chatStreamStep [s] st raw).emitted, isSubOf s f = false) := by
  by_cases hstop : st.stopped = true
  · unfold chatStreamStep
    rw [if_pos hstop]
    exact ⟨h1, h2⟩
  · unfold chatStreamStep
    rw [if_neg hstop, find?_sub_singleton]
    by_cases hsub : isSubOf s (st.accumulated ++ (st.partialBuf ++ raw)) = true
    · rw [if_pos hsub]
      dsimp only
      constructor
      · intro hcontra
        exact absurd hcontra (by simp)
      · intro f hf
        rcases List.mem_append.mp hf with hf | hf
        · exact h2 f hf
        · revert hf
          by_cases hch : (((st.partialBuf ++ raw).take
              (firstOcc s (st.accumulated ++ (st.partialBuf ++ raw)) -
                ((st.accumulated ++ (st.partialBuf ++ raw)).length -
                  (st.partialBuf ++ raw).length))).isEmpty) = true
          · rw [if_pos hch]
            intro hf
            exact absurd hf (by simp)
          · rw [if_neg hch]
            intro hf
            have hfeq : f = (st.partialBuf ++ raw).take
                (firstOcc s (st.accumulated ++ (st.partialBuf ++ raw)) -
                  ((st.accumulated ++ (st.partialBuf ++ raw)).length -
                    (st.partialBuf ++ raw).length)) := by
              simpa using hf
            rw [hfeq]
            exact stop_chunk_no_sub s st.accumulated (st.partialBuf ++ raw) hs
    · rw [if_neg hsub]
      have hsubf : isSubOf s (st.accumulated ++ (st.partialBuf ++ raw)) = false := by
        cases hval : isSubOf s (st.accumulated ++ (st.partialBuf ++ raw)) with
        | false => rfl
        | true => exact absurd hval hsub
      have htake : ∀ m, isSubOf s ((st.partialBuf ++ raw).take m) = false :=
        fun m => sub_take_of_append_false s st.accumulated (st.partialBuf ++ raw)
          m hsubf
      cases hpb : findPartialBuffer [s] (st.partialBuf ++ raw)
          (st.accumulated ++ (st.partialBuf ++ raw)) with
      | some i =>
        dsimp only
        constructor
        · intro _
          exact hsubf
        · intro f hf
          rcases List.mem_append.mp hf with hf | hf
          · exact h2 f hf
          · revert hf
            by_cases hch : (((st.partialBuf ++ raw).take
                ((st.partialBuf ++ raw).length - i)).isEmpty) = true
            · rw [if_pos hch]
              intro hf
              exact absurd hf (by simp)
            · rw [if_neg hch]
              intro hf
              have hfeq : f = (st.partialBuf ++ raw).take
                  ((st.partialBuf ++ raw).length - i) := by
                simpa using hf
              rw [hfeq]
              exact htake _
      | none =>
        dsimp only
        constructor
        · intro _
          exact hsubf
        · intro f hf
          rcases List.mem_append.mp hf with hf | hf
          · exact h2 f hf
          · revert hf
            by_cases hch : ((st.partialBuf ++ raw).isEmpty) = true
            · rw [if_pos hch]
              intro hf
              exact absurd hf (by simp)
            · rw [if_neg hch]
              intro hf
              have hfeq : f = st.partialBuf ++ raw := by
                simpa using hf
              rw [hfeq, ← List.take_length (st.partialBuf ++ raw)]
              exact htake _

/-- C2 counterexample: the text-completion stream emits the decoder chunk
verbatim even when it contains the stop string; the chat stream's emitted
deltas can concatenate to the stop string itself (stop `abab` on chunks
`aba`, `ba` emits `ab`, `ab`); and an emitted chat frame can end with a
proper prefix of the stop with another content frame following (stop `ab`
on chunks `aa`, `a` emits `a`, `a`). -/
theorem C2_stream_stop_counterexample :
    completionStreamTexts ["Sure.\n\nUser: hi".toList]
        = ["Sure.\n\nUser: hi".toList]
    ∧ isSubOf "\n\nUser:".toList "Sure.\n\nUser: hi".toList = true
    ∧ chatStreamEmitted [c2Stop] c2Chunks = ["ab".toList, "ab".toList]
    ∧ isSubOf c2Stop (chatStreamEmitted [c2Stop] c2Chunks).join = true
    ∧ chatStreamEmitted ["ab".toList] ["aa".toList, "a".toList]
        = ["a".toList, "a".toList]
    ∧ isSuffOf "a".toList "a".toList = true :=
  ⟨rfl, rfl, rfl, rfl, rfl, rfl⟩

/-- C2 (amended): stop splicing exists only in the chat path, where for a
single non-empty effective stop string no single emitted content delta
contains the stop as a substring (the concatenation across deltas can,
because the partial-stop buffer is appended to `accumulated_text` a second
time); the text-completion path emits every decoder chunk verbatim with no
stop handling. -/
theorem C2_stream_stop_amended :
    (∀ (s : List Char) (chunks : List (List Char)), s ≠ [] →
        ∀ f ∈ chatStreamEmitted [s] chunks, isSubOf s f = false)
    ∧ (∀ chunks : List (List Char), completionStreamTexts chunks = chunks) := by
  constructor
  · intro s chunks hs
    have key : ∀ (cs : List (List Char)) (st : StreamState),
        (st.stopped = false → isSubOf s st.accumulated = false) →
        (∀ f ∈ st.emitted, isSubOf s f = false) →
        ∀ f ∈ (cs.foldl (chatStreamStep [s]) st).emitted, isSubOf s f = false := by
      intro cs
      induction cs with
      | nil =>
        intro st hA hB
        exact hB
      | cons c cc ih =>
        intro st hA hB
        simp only [List.foldl_cons]
        obtain ⟨hA', hB'⟩ := chatStreamStep_preserves s hs st c hA hB
        exact ih _ hA' hB'
    intro f hf
    unfold chatStreamEmitted runChatStream at hf
    exact key chunks ⟨[], [], [], false⟩ (fun _ => isSubOf_nil_of_ne hs)
      (by simp) f hf
  · intro chunks
    have key : ∀ acc, chunks.foldl (fun a t => a ++ [t]) acc = acc ++ chunks := by
      induction chunks with
      | nil =>
        intro acc
        simp
      | cons c cc ih =>
        intro acc
        simp only [List.foldl_cons]
        rw [ih]
        simp
    unfold completionStreamTexts
    rw [key []]
    rfl

/-- Witness for C2's amended guarantee at a concrete stop and chunk list. -/
theorem C2_stream_stop_amended_witness :
    (∀ f ∈ chatStreamEmitted ["ab".toList] c2WitnessChunks,
        isSubOf "ab".toList f = false)
    ∧ completionStreamTexts c2WitnessChunks = c2WitnessChunks :=
  ⟨fun f hf => C2_stream_stop_amended.1 "ab".toList c2WitnessChunks
      (by decide) f hf,
   C2_stream_stop_amended.2 c2WitnessChunks⟩

end Tuneloom
